import Mathlib

namespace MasterMind

/-- A symbol (color) is a string, as in the Python sources. -/
abbrev Symbol := String

/-- A code is an ordered sequence of symbols (Python tuple of strings). -/
abbrev Code := List Symbol

/-- Feedback is a pair (black, white).  `black` is a count (a natural number);
`white` is computed by an integer subtraction in the source, so it is an `Int`. -/
abbrev Feedback := Nat × Int

/-- `COLORS = ['red', 'yellow', 'green', 'blue', 'pink', 'brown']` from the sources. -/
def COLORS : List Symbol := ["red", "yellow", "green", "blue", "pink", "brown"]

/-- `PEGS = 5` from the sources. -/
def PEGS : Nat := 5

/-- Embedding of `get_feedback(secret, guess)` (identical in constraint.py,
maxmin.py, logicalinterface.py, depthsirch.py):
`black = sum(1 for s, g in zip(secret, guess) if s == g)` and
`white = sum(min(secret.count(c), guess.count(c)) for c in set(guess)) - black`.
Python's `set(guess)` is modelled by `guess.dedup` (iteration order of the set
does not affect the sum). -/
def get_feedback (secret guess : Code) : Feedback :=
  let black := (List.zip secret guess).countP (fun p => p.1 == p.2)
  let white : Int :=
    ((guess.dedup).map (fun c => (min (secret.count c) (guess.count c) : Int))).sum - black
  (black, white)

/-- The spec's description of `black`: the number of positions `i` with
`secret[i] == guess[i]`. -/
def specBlack (secret guess : Code) : Nat :=
  (List.range secret.length).countP (fun i => secret.getD i "" == guess.getD i "")

/-- The spec's description of `white`: the sum over each distinct symbol `c` of
`min(count of c in secret, count of c in guess)`, minus `black`. -/
def specWhite (secret guess : Code) : Int :=
  (((secret ++ guess).dedup).map (fun c => (min (secret.count c) (guess.count c) : Int))).sum
    - specBlack secret guess

/-! ### Basic lemmas about `get_feedback` -/

lemma sum_map_intCast (l : List Symbol) (f : Symbol → ℕ) :
    (l.map (fun c => (f c : Int))).sum = ((l.map f).sum : Int) := by
  induction l with
  | nil => simp
  | cons a l ih => simp [ih]

lemma dedup_toFinset (l : List Symbol) : l.dedup.toFinset = l.toFinset := by
  ext x; simp [List.mem_dedup]

/-- The white-sum over `set(guess)` equals the same sum over the union of the
symbols of both codes: symbols outside `guess` contribute `min(_, 0) = 0`. -/
lemma white_sum_eq_union (s g : Code) :
    ((g.dedup).map (fun c => (min (s.count c) (g.count c) : Int))).sum =
      ∑ c ∈ (s.toFinset ∪ g.toFinset), (min (s.count c) (g.count c) : Int) := by
  calc ((g.dedup).map (fun c => (min (s.count c) (g.count c) : Int))).sum
      = (g.dedup.toFinset).sum (fun c => (min (s.count c) (g.count c) : Int)) :=
        (List.sum_toFinset _ g.nodup_dedup).symm
    _ = (g.toFinset).sum (fun c => (min (s.count c) (g.count c) : Int)) := by
        rw [dedup_toFinset]
    _ = ∑ c ∈ (s.toFinset ∪ g.toFinset), (min (s.count c) (g.count c) : Int) := by
        refine Finset.sum_subset Finset.subset_union_right ?_
        intro c _ hc
        rw [List.mem_toFinset] at hc
        have : g.count c = 0 := by
          rw [List.count_eq_zero]
          simpa using hc
        simp [this]

lemma white_sum_append_eq_union (s g : Code) :
    (((s ++ g).dedup).map (fun c => (min (s.count c) (g.count c) : Int))).sum =
      ∑ c ∈ (s.toFinset ∪ g.toFinset), (min (s.count c) (g.count c) : Int) := by
  calc (((s ++ g).dedup).map (fun c => (min (s.count c) (g.count c) : Int))).sum
      = ((s ++ g).dedup.toFinset).sum (fun c => (min (s.count c) (g.count c) : Int)) :=
        (List.sum_toFinset _ (s ++ g).nodup_dedup).symm
    _ = ∑ c ∈ (s.toFinset ∪ g.toFinset), (min (s.count c) (g.count c) : Int) := by
        rw [dedup_toFinset, List.toFinset_append]

lemma black_zip_comm (s g : Code) :
    (List.zip s g).countP (fun p => p.1 == p.2) =
      (List.zip g s).countP (fun p => p.1 == p.2) := by
  rw [← List.zip_swap s g, List.countP_map]
  refine List.countP_congr ?_
  intro x _
  simp only [Function.comp_apply, Prod.fst_swap, Prod.snd_swap, beq_iff_eq]
  exact ⟨Eq.symm, Eq.symm⟩

/-- Claim C5's content, proved with no hypotheses at all: the feedback formula
is symmetric in its two arguments for arbitrary codes. -/
lemma get_feedback_comm_aux (a b : Code) : get_feedback a b = get_feedback b a := by
  unfold get_feedback
  have hb : (List.zip a b).countP (fun p => p.1 == p.2) =
      (List.zip b a).countP (fun p => p.1 == p.2) := black_zip_comm a b
  have hw : ((b.dedup).map (fun c => (min (a.count c) (b.count c) : Int))).sum =
      ((a.dedup).map (fun c => (min (b.count c) (a.count c) : Int))).sum := by
    rw [white_sum_eq_union a b, white_sum_eq_union b a, Finset.union_comm]
    refine Finset.sum_congr rfl ?_
    intro c _
    rw [min_comm]
  simp only [hb, hw]

lemma countP_zip_self (s : Code) :
    (List.zip s s).countP (fun p => p.1 == p.2) = s.length := by
  induction s with
  | nil => simp
  | cons a l ih => simp [List.countP_cons, ih]

lemma sum_min_self (s : Code) :
    ((s.dedup).map (fun c => (min (s.count c) (s.count c) : Int))).sum = (s.length : Int) := by
  simp only [min_self]
  rw [sum_map_intCast]
  norm_cast
  exact List.sum_map_count_dedup_eq_length s

/-- `get_feedback(s, s) = (len s, 0)`. -/
lemma get_feedback_self (s : Code) : get_feedback s s = (s.length, 0) := by
  unfold get_feedback
  simp only [countP_zip_self, sum_min_self]
  simp

lemma eq_of_zip_forall_eq {s g : Code} (hlen : s.length = g.length)
    (h : ∀ p ∈ List.zip s g, p.1 = p.2) : s = g := by
  induction s generalizing g with
  | nil => cases g with
    | nil => rfl
    | cons b g' => simp at hlen
  | cons a s' ih =>
    cases g with
    | nil => simp at hlen
    | cons b g' =>
      have hab : a = b := h (a, b) (by simp [List.zip_cons_cons])
      have : s' = g' := by
        refine ih (by simpa using hlen) ?_
        intro p hp
        exact h p (by simp [List.zip_cons_cons, hp])
      rw [hab, this]

/-- Over equal-length codes, feedback `(P, 0)` characterises equality. -/
lemma get_feedback_eq_solved_iff {P : ℕ} {s g : Code} (hs : s.length = P)
    (hg : g.length = P) : get_feedback s g = (P, 0) ↔ g = s := by
  constructor
  · intro h
    have hblack : (List.zip s g).countP (fun p => p.1 == p.2) = P := by
      have := congrArg Prod.fst h
      simpa [get_feedback] using this
    have hlenzip : (List.zip s g).length = P := by
      rw [List.length_zip, hs, hg, min_self]
    have hall : ∀ p ∈ List.zip s g, (fun p : Symbol × Symbol => p.1 == p.2) p = true := by
      rw [← List.countP_eq_length]
      omega
    refine (eq_of_zip_forall_eq (hs.trans hg.symm) ?_).symm
    intro p hp
    simpa using hall p hp
  · intro h
    subst h
    rw [get_feedback_self, hg]

/-- Black is the countP-over-range description of matching positions. -/
lemma black_eq_specBlack {s g : Code} (hlen : s.length = g.length) :
    (List.zip s g).countP (fun p => p.1 == p.2) = specBlack s g := by
  unfold specBlack
  induction s generalizing g with
  | nil => simp
  | cons a s' ih =>
    cases g with
    | nil => simp at hlen
    | cons b g' =>
      have hl : s'.length = g'.length := by simpa using hlen
      simp only [List.zip_cons_cons, List.countP_cons, List.length_cons,
        List.range_succ_eq_map, List.countP_map]
      rw [ih hl]
      have : ((fun i => List.getD (a :: s') i "" == List.getD (b :: g') i "") ∘ Nat.succ) =
          (fun i => List.getD s' i "" == List.getD g' i "") := by
        funext i
        rfl
      rw [this]
      simp [Nat.add_comm]

lemma white_sum_le_length (s g : Code) :
    ((g.dedup).map (fun c => (min (s.count c) (g.count c) : Int))).sum ≤ (g.length : Int) := by
  calc ((g.dedup).map (fun c => (min (s.count c) (g.count c) : Int))).sum
      ≤ ((g.dedup).map (fun c => (g.count c : Int))).sum := by
        refine List.sum_le_sum ?_
        intro c _
        exact_mod_cast Nat.min_le_right _ _
    _ = ((g.dedup.map (fun c => g.count c)).sum : Int) := sum_map_intCast _ _
    _ = (g.length : Int) := by
        norm_cast
        exact List.sum_map_count_dedup_eq_length g

/-- C1: for equal-length codes, `get_feedback` returns exactly the pair
described by the spec (positional-match count, multiset-overlap minus black),
and the result satisfies `0 ≤ black ≤ P` and `black + white ≤ P`. -/
theorem get_feedback_spec_and_bounds (P : ℕ) (secret guess : Code)
    (hs : secret.length = P) (hg : guess.length = P) :
    get_feedback secret guess = (specBlack secret guess, specWhite secret guess) ∧
    0 ≤ (get_feedback secret guess).1 ∧
    (get_feedback secret guess).1 ≤ P ∧
    ((get_feedback secret guess).1 : Int) + (get_feedback secret guess).2 ≤ (P : Int) := by
  have hlen : secret.length = guess.length := hs.trans hg.symm
  have hblack : (List.zip secret guess).countP (fun p => p.1 == p.2) =
      specBlack secret guess := black_eq_specBlack hlen
  have hwhite : ((guess.dedup).map
        (fun c => (min (secret.count c) (guess.count c) : Int))).sum =
      (((secret ++ guess).dedup).map
        (fun c => (min (secret.count c) (guess.count c) : Int))).sum := by
    rw [white_sum_eq_union, white_sum_append_eq_union]
  refine ⟨?_, Nat.zero_le _, ?_, ?_⟩
  · unfold get_feedback specWhite
    simp only [hblack, hwhite]
  · show (List.zip secret guess).countP (fun p => p.1 == p.2) ≤ P
    calc (List.zip secret guess).countP (fun p => p.1 == p.2)
        ≤ (List.zip secret guess).length := List.countP_le_length _
      _ = P := by rw [List.length_zip, hs, hg, min_self]
  · show ((List.zip secret guess).countP (fun p => p.1 == p.2) : Int) +
      (((guess.dedup).map (fun c => (min (secret.count c) (guess.count c) : Int))).sum -
        ((List.zip secret guess).countP (fun p => p.1 == p.2) : Int)) ≤ (P : Int)
    have := white_sum_le_length secret guess
    rw [hg] at this
    omega

/-- Witness for C1 at the concrete input `secret = [red], guess = [blue]`, `P = 1`. -/
theorem get_feedback_spec_and_bounds_witness :
    ((["red"] : Code).length = 1 ∧ (["blue"] : Code).length = 1) ∧
    (get_feedback ["red"] ["blue"] = (specBlack ["red"] ["blue"], specWhite ["red"] ["blue"]) ∧
      0 ≤ (get_feedback ["red"] ["blue"]).1 ∧
      (get_feedback ["red"] ["blue"]).1 ≤ 1 ∧
      ((get_feedback ["red"] ["blue"]).1 : Int) + (get_feedback ["red"] ["blue"]).2 ≤ (1 : Int)) :=
  ⟨⟨rfl, rfl⟩, get_feedback_spec_and_bounds 1 ["red"] ["blue"] rfl rfl⟩

/-- C5: `get_feedback(a, b) = get_feedback(b, a)` — proved without any
hypothesis at all (the formula is symmetric for arbitrary codes, in
particular for codes of equal length over the same alphabet). -/
theorem get_feedback_symmetric (a b : Code) : get_feedback a b = get_feedback b a :=
  get_feedback_comm_aux a b

/-! ### The full code space: `itertools.product(colors_list, repeat=pegs)` -/

/-- Embedding of `list(itertools.product(colors_list, repeat=pegs))`: all
tuples of length `pegs` over `colors_list`, first coordinate most significant. -/
def product_codes (colors : List Symbol) : Nat → List Code
  | 0 => [[]]
  | n + 1 => colors.flatMap (fun c => (product_codes colors n).map (fun rest => c :: rest))

lemma mem_product_codes {colors : List Symbol} :
    ∀ {n : ℕ} {x : Code}, x ∈ product_codes colors n ↔
      x.length = n ∧ ∀ c ∈ x, c ∈ colors := by
  intro n
  induction n with
  | zero =>
    intro x
    simp only [product_codes, List.mem_singleton]
    constructor
    · rintro rfl
      simp
    · rintro ⟨h, -⟩
      exact List.eq_nil_of_length_eq_zero h
  | succ n ih =>
    intro x
    simp only [product_codes, List.mem_flatMap, List.mem_map]
    constructor
    · rintro ⟨c, hc, rest, hrest, rfl⟩
      obtain ⟨hlen, hmem⟩ := ih.mp hrest
      refine ⟨by simp [hlen], ?_⟩
      intro d hd
      rcases List.mem_cons.mp hd with h | h
      · rwa [h]
      · exact hmem d h
    · rintro ⟨hlen, hmem⟩
      cases x with
      | nil => simp at hlen
      | cons c rest =>
        refine ⟨c, hmem c (by simp), rest, ih.mpr ⟨by simpa using hlen, ?_⟩, rfl⟩
        intro d hd
        exact hmem d (by simp [hd])

lemma length_product_codes (colors : List Symbol) :
    ∀ n, (product_codes colors n).length = colors.length ^ n := by
  intro n
  induction n with
  | zero => simp [product_codes]
  | succ n ih =>
    simp only [product_codes, List.length_flatMap, List.map_map]
    have : (colors.map ((fun l : List Code => l.length) ∘
        fun c => (product_codes colors n).map (fun rest => c :: rest))) =
        colors.map (fun _ => colors.length ^ n) := by
      refine List.map_congr_left ?_
      intro c _
      simp [ih]
    rw [this, List.map_const', List.sum_replicate, smul_eq_mul, pow_succ, Nat.mul_comm]

lemma nodup_product_codes {colors : List Symbol} (h : colors.Nodup) :
    ∀ n, (product_codes colors n).Nodup := by
  intro n
  induction n with
  | zero => simp [product_codes]
  | succ n ih =>
    rw [product_codes, List.nodup_flatMap]
    constructor
    · intro c _
      exact ih.map (fun a b hab => by injection hab)
    · refine h.imp ?_
      intro a b hab
      simp only [Function.onFun]
      rw [List.disjoint_left]
      rintro x hxa hxb
      simp only [List.mem_map] at hxa hxb
      obtain ⟨ra, -, rfl⟩ := hxa
      obtain ⟨rb, -, hb⟩ := hxb
      refine hab ?_
      injection hb with hhead htail
      exact hhead.symm

/-! ### Console output of a solving run

Each Python solver reports its progress only through `print` statements and
returns only `guess_history`.  The embedding returns the pair
`(guess_history, trace)`, where the trace records the print events. -/

/-- The print events of one solving run:  the per-turn report, the
"✅ Secret code found in {turn} turns!" message, the
"❌ No candidates remain..." message and the
"➖ No progress from filtering..." message. -/
inductive Ev where
  | turnMsg (turn : Nat) (guess : Code) (fb : Feedback)
  | solvedMsg (turn : Nat)
  | exhaustedMsg
  | noProgressMsg
deriving DecidableEq

/-! ### Candidate filtering steps -/

/-- Phase-1 filtering in constraint.py (line 57) and the minimax filter
(maxmin.py line 101):
`[code for code in remaining if get_feedback(code, guess) == fb]`. -/
def filter_one (remaining : List Code) (guess : Code) (fb : Feedback) : List Code :=
  remaining.filter (fun code => decide (get_feedback code guess = fb))

/-- Phase-2 filtering in constraint.py (line 88) and logicalinterface.py:
`[code for code in remaining if all(get_feedback(code, g) == f for g, f in premises)]`. -/
def filter_premises (remaining : List Code) (premises : List (Code × Feedback)) : List Code :=
  remaining.filter (fun code => premises.all (fun gf => decide (get_feedback code gf.1 = gf.2)))

/-! ### First-minimizer selection

Both `logical_inference_solver` (constraint.py lines 66-77) and the first pass
of `minimax_guess` (maxmin.py lines 30-42) iterate over a list keeping
`best_score = float('inf')` / `best_guess = None` and replacing them whenever
the current value is strictly smaller, so the first minimizer wins.  Starting
from `inf` means the first element always replaces the initial state, which is
what `argmin_first` encodes. -/

def argmin_go {α β : Type} [LinearOrder β] (f : α → β) : β → α → List α → β × α
  | bs, bg, [] => (bs, bg)
  | bs, bg, x :: rest =>
      if f x < bs then argmin_go f (f x) x rest else argmin_go f bs bg rest

def argmin_first {α β : Type} [LinearOrder β] (f : α → β) : List α → Option (β × α)
  | [] => none
  | x :: rest => some (argmin_go f (f x) x rest)

lemma argmin_go_spec {α β : Type} [LinearOrder β] (f : α → β) :
    ∀ (l : List α) (bg : α),
      (argmin_go f (f bg) bg l).1 = f (argmin_go f (f bg) bg l).2 ∧
      (argmin_go f (f bg) bg l).1 ≤ f bg ∧
      (∀ x ∈ l, (argmin_go f (f bg) bg l).1 ≤ f x) ∧
      ((argmin_go f (f bg) bg l).2 = bg ∨
        ∃ l₁ l₂, l = l₁ ++ (argmin_go f (f bg) bg l).2 :: l₂ ∧
          (argmin_go f (f bg) bg l).1 < f bg ∧
          ∀ x ∈ l₁, (argmin_go f (f bg) bg l).1 < f x) := by
  intro l
  induction l with
  | nil =>
    intro bg
    refine ⟨rfl, le_refl _, by simp, Or.inl rfl⟩
  | cons x rest ih =>
    intro bg
    by_cases h : f x < f bg
    · have hgo : argmin_go f (f bg) bg (x :: rest) = argmin_go f (f x) x rest := by
        show (if f x < f bg then argmin_go f (f x) x rest else argmin_go f (f bg) bg rest) =
          argmin_go f (f x) x rest
        rw [if_pos h]
      obtain ⟨h1, h2, h3, h4⟩ := ih x
      rw [hgo]
      refine ⟨h1, le_of_lt (lt_of_le_of_lt h2 h), ?_, ?_⟩
      · intro y hy
        rcases List.mem_cons.mp hy with rfl | hy
        · exact h2
        · exact h3 y hy
      · rcases h4 with h4 | ⟨l₁, l₂, hsplit, hlt, hall⟩
        · refine Or.inr ⟨[], rest, ?_, lt_of_le_of_lt h2 h, by simp⟩
          rw [h4]
          rfl
        · refine Or.inr ⟨x :: l₁, l₂, ?_, lt_trans hlt h, ?_⟩
          · rw [List.cons_append, ← hsplit]
          · intro y hy
            rcases List.mem_cons.mp hy with rfl | hy
            · exact hlt
            · exact hall y hy
    · have hgo : argmin_go f (f bg) bg (x :: rest) = argmin_go f (f bg) bg rest := by
        show (if f x < f bg then argmin_go f (f x) x rest else argmin_go f (f bg) bg rest) =
          argmin_go f (f bg) bg rest
        rw [if_neg h]
      obtain ⟨h1, h2, h3, h4⟩ := ih bg
      rw [hgo]
      refine ⟨h1, h2, ?_, ?_⟩
      · intro y hy
        rcases List.mem_cons.mp hy with rfl | hy
        · exact le_trans h2 (le_of_not_lt h)
        · exact h3 y hy
      · rcases h4 with h4 | ⟨l₁, l₂, hsplit, hlt, hall⟩
        · exact Or.inl h4
        · refine Or.inr ⟨x :: l₁, l₂, ?_, hlt, ?_⟩
          · rw [List.cons_append, ← hsplit]
          · intro y hy
            rcases List.mem_cons.mp hy with rfl | hy
            · exact lt_of_lt_of_le hlt (le_of_not_lt h)
            · exact hall y hy

/-- Complete specification of `argmin_first`: the returned element is a member
achieving the minimum of `f`, every element strictly before it scores strictly
worse, and the returned score is its `f`-value. -/
lemma argmin_first_spec {α β : Type} [LinearOrder β] (f : α → β) (l : List α)
    (s : β) (c : α) (h : argmin_first f l = some (s, c)) :
    s = f c ∧ c ∈ l ∧ (∀ x ∈ l, f c ≤ f x) ∧
      ∃ l₁ l₂, l = l₁ ++ c :: l₂ ∧ ∀ x ∈ l₁, f c < f x := by
  cases l with
  | nil => simp [argmin_first] at h
  | cons x rest =>
    simp only [argmin_first, Option.some_inj] at h
    obtain ⟨h1, h2, h3, h4⟩ := argmin_go_spec f rest x
    rw [h] at h1 h2 h3 h4
    simp only at h1 h2 h3 h4
    refine ⟨h1, ?_, ?_, ?_⟩
    · rcases h4 with h4 | ⟨l₁, l₂, hsplit, -, -⟩
      · simp [h4]
      · rw [hsplit]
        simp
    · intro y hy
      rw [← h1]
      rcases List.mem_cons.mp hy with rfl | hy
      · exact h2
      · exact h3 y hy
    · rcases h4 with h4 | ⟨l₁, l₂, hsplit, hlt, hall⟩
      · exact ⟨[], rest, by simp [h4], by simp⟩
      · refine ⟨x :: l₁, l₂, by simp [hsplit], ?_⟩
        intro y hy
        rw [← h1]
        rcases List.mem_cons.mp hy with rfl | hy
        · exact hlt
        · exact hall y hy

lemma argmin_first_eq_none {α β : Type} [LinearOrder β] (f : α → β) (l : List α) :
    argmin_first f l = none ↔ l = [] := by
  cases l <;> simp [argmin_first]

/-! ### The logical-inference solver (constraint.py) -/

/-- The consistency score of constraint.py lines 70-74:
`score = Σ over premises (g, f) of |candidate_fb[0] - f[0]| + |candidate_fb[1] - f[1]|`. -/
def score (premises : List (Code × Feedback)) (candidate : Code) : Int :=
  (premises.map (fun gf =>
    |((get_feedback candidate gf.1).1 : Int) - (gf.2.1 : Int)| +
      |(get_feedback candidate gf.1).2 - gf.2.2|)).sum

/-- The running state of one `logical_inference_solver` run.  `k` counts how
many values the ambient pseudo-random source has produced so far: Python's
`random.choice(remaining)` is modelled as
`remaining[rng k % len(remaining)]` for an arbitrary ambient stream `rng`. -/
structure LIState where
  remaining : List Code
  premises : List (Code × Feedback)
  history : List Code
  turn : Nat
  evs : List Ev
  k : Nat

/-- Phase 1 of `logical_inference_solver` (constraint.py lines 46-60): make
`num_initial_guesses` random guesses, filtering after each; return early
(`Sum.inl`) when the feedback is `(pegs, 0)`. -/
def li_phase1 (secret : Code) (pegs : Nat) (rng : Nat → Nat) :
    Nat → LIState → (List Code × List Ev) ⊕ LIState
  | 0, st => .inr st
  | n + 1, st =>
    let turn := st.turn + 1
    let guess := st.remaining.getD (rng st.k % st.remaining.length) []
    let history := st.history ++ [guess]
    let fb := get_feedback secret guess
    let evs := st.evs ++ [.turnMsg turn guess fb]
    let premises := st.premises ++ [(guess, fb)]
    let remaining := filter_one st.remaining guess fb
    if fb = (pegs, 0) then .inl (history, evs ++ [.solvedMsg turn])
    else li_phase1 secret pegs rng n ⟨remaining, premises, history, turn, evs, st.k + 1⟩

/-- Phase 2 of `logical_inference_solver` (constraint.py lines 64-94): the
`while remaining:` loop, modelled with a fuel parameter (when the fuel runs
out, the pair accumulated so far is returned; the theorems show that fuel
`|colors|^pegs` always suffices).  The `best_guess is None` fallback of line
78-79 is the `none` branch, which consumes one random draw as the source
would. -/
def li_phase2 (secret : Code) (pegs : Nat) (rng : Nat → Nat) :
    Nat → LIState → List Code × List Ev
  | 0, st => (st.history, st.evs)
  | fuel + 1, st =>
    if st.remaining = [] then (st.history, st.evs)
    else
      let turn := st.turn + 1
      let gk : Code × Nat := match argmin_first (score st.premises) st.remaining with
        | some (_, g) => (g, st.k)
        | none => (st.remaining.getD (rng st.k % st.remaining.length) [], st.k + 1)
      let guess := gk.1
      let history := st.history ++ [guess]
      let fb := get_feedback secret guess
      let evs := st.evs ++ [.turnMsg turn guess fb]
      let premises := st.premises ++ [(guess, fb)]
      let remaining := filter_premises st.remaining premises
      if fb = (pegs, 0) then (history, evs ++ [.solvedMsg turn])
      else if remaining = [] then (history, evs ++ [.exhaustedMsg])
      else li_phase2 secret pegs rng fuel ⟨remaining, premises, history, turn, evs, gk.2⟩

/-- Embedding of `logical_inference_solver(secret, pegs, colors_list,
num_initial_guesses)` (constraint.py lines 22-96).  The Python function
returns only `guess_history`; the second component of the result is the trace
of print events. -/
def logical_inference_solver (secret : Code) (pegs : Nat) (colors_list : List Symbol)
    (num_initial_guesses : Nat) (rng : Nat → Nat) (fuel : Nat) : List Code × List Ev :=
  let all_codes := product_codes colors_list pegs
  match li_phase1 secret pegs rng num_initial_guesses ⟨all_codes, [], [], 0, [], 0⟩ with
  | .inl res => res
  | .inr st => li_phase2 secret pegs rng fuel st

/-! ### The minimax solver (maxmin.py) -/

/-- Worst-case partition size of maxmin.py lines 35-39: the guess partitions
`remaining` by the feedback each member would produce, and `worst_partition`
is the size of the largest block (`max(partition_sizes.values())`).  The dict
stores, for every distinct feedback value occurring in
`[get_feedback(s, guess) for s in remaining]`, the number of members producing
it; the maximum over those counts equals the maximum, over the members
themselves, of the size of the member's own feedback class, which is the form
used here.  (Python's `max` of an empty dict raises; for an empty `remaining`
this definition returns 0, a state the solver never reaches.) -/
def worst_partition (remaining : List Code) (guess : Code) : Nat :=
  (remaining.map (fun s =>
    (remaining.filter (fun t =>
      decide (get_feedback t guess = get_feedback s guess))).length)).foldr max 0

/-- Second pass of `minimax_guess` (maxmin.py lines 45-53): find the first
guess in `all_codes` whose worst-case partition size equals `best_score` and
which is itself in `remaining`; `none` when no such guess exists (no `break`
fires and the first-pass result stands). -/
def mm_second_pass (remaining : List Code) (best_score : Nat) : List Code → Option Code
  | [] => none
  | g :: rest =>
    if worst_partition remaining g = best_score ∧ g ∈ remaining then some g
    else mm_second_pass remaining best_score rest

/-- Embedding of `minimax_guess(remaining, all_codes)` (maxmin.py lines
21-55).  The first pass keeps the first strict minimizer of the worst-case
partition size over `all_codes`; the second pass may replace it by an
equal-scoring member of `remaining`.  Returns `none` exactly when `all_codes`
is empty (Python would return its initial `best_guess = None`). -/
def minimax_guess (remaining all_codes : List Code) : Option Code :=
  match argmin_first (worst_partition remaining) all_codes with
  | none => none
  | some (bs, bg) =>
    match mm_second_pass remaining bs all_codes with
    | some g => some g
    | none => some bg

/-- The filtering update of maxmin.py lines 101-108: filter `remaining` by
the observed feedback; if that makes no progress (same length), force removal
of the guess instead (`remaining.remove(guess)` removes the first occurrence
and does nothing when absent, like `List.erase`). -/
def mm_update (remaining : List Code) (guess : Code) (fb : Feedback) : List Code :=
  let new_remaining := filter_one remaining guess fb
  if new_remaining.length = remaining.length then remaining.erase guess else new_remaining

/-- `initial_guess = ('red', 'red', 'yellow', 'green', 'blue')` (maxmin.py line 75). -/
def initial_guess : Code := ["red", "red", "yellow", "green", "blue"]

/-- The `while remaining:` loop of `mastermind_minimax_solver` (maxmin.py
lines 79-113), with fuel.  On turn 1 the fixed `initial_guess` is used
(line 84 assigns it unconditionally; the pre-loop fallback on line 76 is dead
code because `guess` is reassigned before first use); afterwards
`minimax_guess` chooses (its `None` result — possible only for an empty
`all_codes` — is modelled by an arbitrary default, a state the solver never
reaches). -/
def mm_loop (secret : Code) (pegs : Nat) (all_codes : List Code) :
    Nat → List Code → List Code → Nat → List Ev → List Code × List Ev
  | 0, _, history, _, evs => (history, evs)
  | fuel + 1, remaining, history, turn, evs =>
    if remaining = [] then (history, evs)
    else
      let turn := turn + 1
      let guess := if turn = 1 then initial_guess
        else (minimax_guess remaining all_codes).getD []
      let history := history ++ [guess]
      let feedback := get_feedback secret guess
      let evs := evs ++ [.turnMsg turn guess feedback]
      if feedback = (pegs, 0) then (history, evs ++ [.solvedMsg turn])
      else
        let remaining' := mm_update remaining guess feedback
        let evs' := if (filter_one remaining guess feedback).length = remaining.length
          then evs ++ [.noProgressMsg] else evs
        if remaining' = [] then (history, evs' ++ [.exhaustedMsg])
        else mm_loop secret pegs all_codes fuel remaining' history turn evs'

/-- Embedding of `mastermind_minimax_solver(secret, pegs, colors_list)`
(maxmin.py lines 57-115).  Returns `(guess_history, print trace)`. -/
def mastermind_minimax_solver (secret : Code) (pegs : Nat) (colors_list : List Symbol)
    (fuel : Nat) : List Code × List Ev :=
  let all_codes := product_codes colors_list pegs
  mm_loop secret pegs all_codes fuel all_codes [] 0 []

/-! ### The CNF layer (logicalinterface.py)

Literals are plain strings such as `"Color(3, 'red')"` or `"~Color(3, 'red')"`
and are parsed during clause evaluation; a parse failure inside the
`try/except` is silently skipped (`continue`). -/

/-- The apostrophe character, written via its code point. -/
def aposChar : Char := Char.ofNat 39

/-- Python's `s.strip("'")` on the character list: remove all leading and
trailing apostrophes. -/
def stripApos (cs : List Char) : List Char :=
  ((cs.dropWhile (fun ch => ch = aposChar)).reverse.dropWhile
    (fun ch => ch = aposChar)).reverse

/-- Python's `s.strip()` on the character list: remove leading and trailing
whitespace. -/
def trimChars (cs : List Char) : List Char :=
  ((cs.dropWhile Char.isWhitespace).reverse.dropWhile Char.isWhitespace).reverse

/-- Python's `s.split(",")` on the character list: split at every comma,
keeping empty parts (`"".split(",") == [""]`). -/
def splitOnComma (cs : List Char) : List (List Char) :=
  cs.foldr (fun c acc =>
    if c = ',' then [] :: acc else (c :: acc.headD []) :: acc.tail) [[]]

def digitsToNat? (ds : List Char) : Option Nat :=
  if ds = [] then none
  else if ds.all (fun c => c.isDigit) then
    some (ds.foldl (fun acc c => acc * 10 + (c.toNat - 48)) 0)
  else none

/-- Python's `int(...)` on the (already stripped) strings arising here: an
optional leading minus sign followed by decimal digits; anything else raises,
i.e. yields `none`. -/
def pyInt? (cs : List Char) : Option Int :=
  match cs with
  | [] => none
  | c :: ds =>
    if c = '-' then (digitsToNat? ds).map (fun n => -(n : Int))
    else (digitsToNat? (c :: ds)).map (fun n => (n : Int))

/-- The parsing done in `code_satisfies_cnf` (logicalinterface.py lines 51-54
and 63-66) on a positive literal text, working on its character list:
`inside = lit[len("Color("):-1]; i_str, col_str = inside.split(",");
i = int(i_str.strip()); c = col_str.strip().strip("'")`.
`none` models the exception caught by the blanket `except: continue`
(a split that does not produce exactly two parts, or a non-numeric index). -/
def parseInsideChars (cs : List Char) : Option (Int × Symbol) :=
  let inside := (cs.drop 6).dropLast
  match splitOnComma inside with
  | [iStr, colStr] =>
    match pyInt? (trimChars iStr) with
    | some i => some (i, String.mk (stripApos (trimChars colStr)))
    | none => none
  | _ => none

/-- `parseInsideChars` on a string literal. -/
def parseInside (s : String) : Option (Int × Symbol) :=
  parseInsideChars s.toList

/-- Python's `code[j]` with its negative-index convention; `none` is an
`IndexError`, which in `code_satisfies_cnf` is raised *outside* the
`try/except` and would crash the run. -/
def pyIndex (l : Code) (i : Int) : Option Symbol :=
  if 0 ≤ i then l[i.toNat]?
  else if 0 ≤ i + l.length then l[(i + l.length).toNat]? else none

/-- Outcome of evaluating one string literal against a code. -/
inductive LitResult where
  | parseFail
  | indexErr
  | val (b : Bool)
deriving DecidableEq

/-- Evaluation of one literal inside `code_satisfies_cnf`: negative literals
start with `"~"` and hold when `code[i-1] != c`, positive ones when
`code[i-1] == c`; a parse failure is `parseFail` (silently skipped by the
caller), an out-of-range index is `indexErr` (an uncaught `IndexError`). -/
def eval_literal (code : Code) (literal : String) : LitResult :=
  if literal.toList.headD ' ' = '~' then
    match parseInsideChars literal.toList.tail with
    | none => .parseFail
    | some (i, c) =>
      match pyIndex code (i - 1) with
      | none => .indexErr
      | some sym => .val (sym ≠ c)
  else
    match parseInsideChars literal.toList with
    | none => .parseFail
    | some (i, c) =>
      match pyIndex code (i - 1) with
      | none => .indexErr
      | some sym => .val (sym = c)

/-- Evaluation of one clause (logicalinterface.py lines 44-71): a clause is
satisfied when some literal evaluates to true; literals that fail to parse
are skipped; an out-of-range index raises (`Except.error`). -/
def clause_sat (code : Code) : List String → Except Unit Bool
  | [] => .ok false
  | lit :: rest =>
    match eval_literal code lit with
    | .parseFail => clause_sat code rest
    | .indexErr => .error ()
    | .val true => .ok true
    | .val false => clause_sat code rest

/-- Embedding of `code_satisfies_cnf(code, cnf)` (logicalinterface.py lines
36-74): true iff every clause has at least one true literal.  Python's
clauses are sets of strings; the derived clauses are singletons, and clause
evaluation is insensitive to iteration order, so clauses are modelled as
lists. -/
def code_satisfies_cnf (code : Code) : List (List String) → Except Unit Bool
  | [] => .ok true
  | clause :: rest =>
    match clause_sat code clause with
    | .error e => .error e
    | .ok true => code_satisfies_cnf code rest
    | .ok false => .ok false

/-- The literal text produced by `derive_simple_cnf_constraints`:
`f"~Color({i}, '{c}')"`. -/
def litString (i : Nat) (c : Symbol) : String :=
  "~Color(" ++ toString i ++ ", " ++ String.singleton aposChar ++ c ++
    String.singleton aposChar ++ ")"

/-- Embedding of `derive_simple_cnf_constraints(guess, fb)` (logicalinterface.py
lines 76-97): when `black == 0`, one singleton negative clause per position
(`range(PEGS)` uses the module-level `PEGS`); otherwise no clauses. -/
def derive_simple_cnf_constraints (guess : Code) (fb : Feedback) : List (List String) :=
  if fb.1 = 0 then
    (List.range PEGS).map (fun i => [litString (i + 1) (guess.getD i "")])
  else []

/-- `code_satisfies_cnf` as the boolean used by the solver's filter
(`[code for code in remaining if code_satisfies_cnf(code, cnf_premises)]`).
The `error` case would crash the Python run; the solver theorems show it is
unreachable there (all derived literals parse and index within range). -/
def cnf_holds (code : Code) (cnf : List (List String)) : Bool :=
  match code_satisfies_cnf code cnf with
  | .ok b => b
  | .error _ => false

/-- The CNF filtering step (logicalinterface.py lines 151 and 177). -/
def filter_cnf (remaining : List Code) (cnf : List (List String)) : List Code :=
  remaining.filter (fun code => cnf_holds code cnf)

/-- The running state of one `logical_inference_solver_CNF` run. -/
structure CNFState where
  remaining : List Code
  premises : List (Code × Feedback)
  cnf : List (List String)
  history : List Code
  turn : Nat
  evs : List Ev
  k : Nat

/-- Phase 1 of `logical_inference_solver_CNF` (logicalinterface.py lines
129-151): the guard `if not remaining` prints the no-candidates message and
returns; the solved check happens before the premise is recorded; filtering
applies all premises and then the CNF. -/
def cnf_phase1 (secret : Code) (rng : Nat → Nat) :
    Nat → CNFState → (List Code × List Ev) ⊕ CNFState
  | 0, st => .inr st
  | n + 1, st =>
    if st.remaining = [] then .inl (st.history, st.evs ++ [.exhaustedMsg])
    else
      let turn := st.turn + 1
      let guess := st.remaining.getD (rng st.k % st.remaining.length) []
      let history := st.history ++ [guess]
      let fb := get_feedback secret guess
      let evs := st.evs ++ [.turnMsg turn guess fb]
      if fb = (PEGS, 0) then .inl (history, evs ++ [.solvedMsg turn])
      else
        let premises := st.premises ++ [(guess, fb)]
        let cnf := st.cnf ++ derive_simple_cnf_constraints guess fb
        let remaining := filter_cnf (filter_premises st.remaining premises) cnf
        cnf_phase1 secret rng n ⟨remaining, premises, cnf, history, turn, evs, st.k + 1⟩

/-- Phase 2 of `logical_inference_solver_CNF` (logicalinterface.py lines
156-181), with fuel. -/
def cnf_phase2 (secret : Code) (rng : Nat → Nat) :
    Nat → CNFState → List Code × List Ev
  | 0, st => (st.history, st.evs)
  | fuel + 1, st =>
    if st.remaining = [] then (st.history, st.evs)
    else
      let turn := st.turn + 1
      let guess := st.remaining.getD (rng st.k % st.remaining.length) []
      let history := st.history ++ [guess]
      let fb := get_feedback secret guess
      let evs := st.evs ++ [.turnMsg turn guess fb]
      if fb = (PEGS, 0) then (history, evs ++ [.solvedMsg turn])
      else
        let premises := st.premises ++ [(guess, fb)]
        let cnf := st.cnf ++ derive_simple_cnf_constraints guess fb
        let remaining := filter_cnf (filter_premises st.remaining premises) cnf
        if remaining = [] then (history, evs ++ [.exhaustedMsg])
        else cnf_phase2 secret rng fuel ⟨remaining, premises, cnf, history, turn, evs, st.k + 1⟩

/-- Embedding of `logical_inference_solver_CNF(secret, num_initial_guesses)`
(logicalinterface.py lines 102-183); this solver is hard-wired to the
module-level `COLORS` and `PEGS`. -/
def logical_inference_solver_CNF (secret : Code) (num_initial_guesses : Nat)
    (rng : Nat → Nat) (fuel : Nat) : List Code × List Ev :=
  let all_codes := product_codes COLORS PEGS
  match cnf_phase1 secret rng num_initial_guesses ⟨all_codes, [], [], [], 0, [], 0⟩ with
  | .inl res => res
  | .inr st => cnf_phase2 secret rng fuel st

/-! ### Lemmas about the filtering steps -/

lemma mem_filter_one {remaining : List Code} {guess : Code} {fb : Feedback} {c : Code} :
    c ∈ filter_one remaining guess fb ↔ c ∈ remaining ∧ get_feedback c guess = fb := by
  simp [filter_one, List.mem_filter]

lemma mem_filter_premises {remaining : List Code} {premises : List (Code × Feedback)}
    {c : Code} :
    c ∈ filter_premises remaining premises ↔
      c ∈ remaining ∧ ∀ gf ∈ premises, get_feedback c gf.1 = gf.2 := by
  simp [filter_premises, List.mem_filter, List.all_eq_true]

lemma mem_filter_cnf {remaining : List Code} {cnf : List (List String)} {c : Code} :
    c ∈ filter_cnf remaining cnf ↔ c ∈ remaining ∧ cnf_holds c cnf = true := by
  simp [filter_cnf, List.mem_filter]

lemma filter_one_length_lt {remaining : List Code} {guess : Code} {fb : Feedback}
    (hg : guess ∈ remaining) (hfb : get_feedback guess guess ≠ fb) :
    (filter_one remaining guess fb).length < remaining.length := by
  refine List.length_filter_lt_length_iff_exists.mpr ⟨guess, hg, ?_⟩
  simp [hfb]

lemma filter_premises_length_lt {remaining : List Code} {premises : List (Code × Feedback)}
    {g : Code} {f : Feedback} (hg : g ∈ remaining) (hmem : (g, f) ∈ premises)
    (hfb : get_feedback g g ≠ f) :
    (filter_premises remaining premises).length < remaining.length := by
  refine List.length_filter_lt_length_iff_exists.mpr ⟨g, hg, ?_⟩
  simp only [List.all_eq_true, not_forall]
  refine ⟨(g, f), hmem, by simp [hfb]⟩

/-- C4: every candidate-filtering step of the three solvers — premise
filtering (both the single newest premise and the full premise history), CNF
filtering, and the minimax solver's filter-or-forced-removal update — yields a
list no longer than its input, so `remaining` is non-increasing across turns
within one run. -/
theorem candidate_set_nonincreasing (remaining : List Code)
    (premises : List (Code × Feedback)) (guess : Code) (fb : Feedback)
    (cnf : List (List String)) :
    (filter_one remaining guess fb).length ≤ remaining.length ∧
    (filter_premises remaining premises).length ≤ remaining.length ∧
    (filter_cnf remaining cnf).length ≤ remaining.length ∧
    (mm_update remaining guess fb).length ≤ remaining.length := by
  refine ⟨List.length_filter_le _ _, List.length_filter_le _ _,
    List.length_filter_le _ _, ?_⟩
  unfold mm_update
  by_cases h : (filter_one remaining guess fb).length = remaining.length
  · rw [if_pos h, List.length_erase]
    split <;> omega
  · rw [if_neg h]
    exact List.length_filter_le _ _

/-! ### Lemmas about `worst_partition` and `minimax_guess` -/

lemma le_foldr_max {l : List ℕ} {x : ℕ} (hx : x ∈ l) : x ≤ l.foldr max 0 := by
  induction l with
  | nil => simp at hx
  | cons a l ih =>
    rcases List.mem_cons.mp hx with rfl | hx
    · exact le_max_left _ _
    · exact le_trans (ih hx) (le_max_right _ _)

lemma foldr_max_le {l : List ℕ} {b : ℕ} (h : ∀ x ∈ l, x ≤ b) : l.foldr max 0 ≤ b := by
  induction l with
  | nil => simp
  | cons a l ih =>
    simp only [List.foldr_cons, max_le_iff]
    exact ⟨h a (by simp), ih (fun x hx => h x (by simp [hx]))⟩

/-- Any feedback class that is inhabited by a member of `remaining` has size at
most the worst-case partition size. -/
lemma filter_class_le_worst {remaining : List Code} {g c : Code} (hc : c ∈ remaining) :
    (remaining.filter (fun t =>
      decide (get_feedback t g = get_feedback c g))).length ≤ worst_partition remaining g := by
  refine le_foldr_max ?_
  exact List.mem_map.mpr ⟨c, hc, rfl⟩

lemma length_le_one_of_all_eq {l : List Code} {a : Code} (hnd : l.Nodup)
    (h : ∀ x ∈ l, x = a) : l.length ≤ 1 := by
  cases l with
  | nil => simp
  | cons x xs =>
    cases xs with
    | nil => simp
    | cons y ys =>
      exfalso
      have hx : x = a := h x (by simp)
      have hy : y = a := h y (by simp)
      rw [List.nodup_cons] at hnd
      exact hnd.1 (by simp [hx, hy])

/-- For a guess taken from a duplicate-free `remaining` of size at least two
(all codes of length `pegs`), the worst partition block has size at most
`|remaining| - 1`: the block of `(pegs, 0)` is the singleton of the guess
itself, and every other block excludes the guess. -/
lemma worst_partition_le_of_mem {remaining : List Code} {g₀ : Code} {pegs : ℕ}
    (hnd : remaining.Nodup) (h2 : 2 ≤ remaining.length) (hg₀ : g₀ ∈ remaining)
    (hlen : ∀ c ∈ remaining, c.length = pegs) :
    worst_partition remaining g₀ ≤ remaining.length - 1 := by
  refine foldr_max_le ?_
  intro x hx
  obtain ⟨c, hc, rfl⟩ := List.mem_map.mp hx
  by_cases hfb : get_feedback c g₀ = (pegs, 0)
  · have hall : ∀ t ∈ remaining.filter (fun t =>
        decide (get_feedback t g₀ = get_feedback c g₀)), t = g₀ := by
      intro t ht
      rw [List.mem_filter] at ht
      have h1 : get_feedback t g₀ = (pegs, 0) := by
        have := ht.2
        simp only [decide_eq_true_eq] at this
        rw [this, hfb]
      have h2 := (get_feedback_eq_solved_iff (hlen t (ht.1)) (hlen g₀ hg₀)).mp h1
      exact h2.symm
    have := length_le_one_of_all_eq (hnd.filter _) hall
    omega
  · have hlt : (remaining.filter (fun t =>
        decide (get_feedback t g₀ = get_feedback c g₀))).length < remaining.length := by
      refine List.length_filter_lt_length_iff_exists.mpr ⟨g₀, hg₀, ?_⟩
      have : get_feedback g₀ g₀ = ((pegs : ℕ), (0 : ℤ)) := by
        rw [get_feedback_self, hlen g₀ hg₀]
      simp only [decide_eq_true_eq, this]
      intro hcon
      exact hfb (by rw [← hcon])
    omega

lemma mm_second_pass_some {remaining : List Code} {bs : ℕ} :
    ∀ {l : List Code} {g : Code}, mm_second_pass remaining bs l = some g →
      g ∈ l ∧ worst_partition remaining g = bs ∧ g ∈ remaining := by
  intro l
  induction l with
  | nil => intro g h; simp [mm_second_pass] at h
  | cons x rest ih =>
    intro g h
    rw [mm_second_pass] at h
    split at h
    · rename_i hcond
      obtain rfl : x = g := by injection h
      exact ⟨by simp, hcond.1, hcond.2⟩
    · obtain ⟨h1, h2, h3⟩ := ih h
      exact ⟨by simp [h1], h2, h3⟩

lemma mm_second_pass_exists {remaining : List Code} {bs : ℕ} :
    ∀ {l : List Code}, (∃ y ∈ l, worst_partition remaining y = bs ∧ y ∈ remaining) →
      ∃ g, mm_second_pass remaining bs l = some g := by
  intro l
  induction l with
  | nil => rintro ⟨y, hy, -⟩; simp at hy
  | cons x rest ih =>
    rintro ⟨y, hy, hw, hr⟩
    rw [mm_second_pass]
    split
    · exact ⟨x, rfl⟩
    · rename_i hcond
      rcases List.mem_cons.mp hy with rfl | hy
      · exact absurd ⟨hw, hr⟩ hcond
      · exact ih ⟨y, hy, hw, hr⟩

/-- Shared content behind claim C3: minimality of the returned guess (with the
extra facts that the guess lies in `all_codes`). -/
lemma minimax_guess_min_aux (remaining all_codes : List Code) (g : Code)
    (hsub : remaining ⊆ all_codes)
    (h : minimax_guess remaining all_codes = some g) :
    g ∈ all_codes ∧
    (∀ g' ∈ all_codes, worst_partition remaining g ≤ worst_partition remaining g') ∧
    ((∃ r ∈ remaining, ∀ g' ∈ all_codes,
        worst_partition remaining r ≤ worst_partition remaining g') → g ∈ remaining) := by
  unfold minimax_guess at h
  rcases hfirst : argmin_first (worst_partition remaining) all_codes with - | ⟨bs, bg⟩
  · rw [hfirst] at h
    simp at h
  · rw [hfirst] at h
    replace h : (match mm_second_pass remaining bs all_codes with
      | some g => some g
      | none => some bg) = some g := h
    obtain ⟨hbs, hbg, hmin, -⟩ := argmin_first_spec _ _ _ _ hfirst
    rcases hsecond : mm_second_pass remaining bs all_codes with - | g'
    · rw [hsecond] at h
      obtain rfl : bg = g := by injection h
      refine ⟨hbg, hmin, ?_⟩
      rintro ⟨r, hr, hropt⟩
      exfalso
      have hrbs : worst_partition remaining r = bs := by
        have h1 : bs ≤ worst_partition remaining r := by
          rw [hbs]
          exact hmin r (hsub hr)
        have h2 : worst_partition remaining r ≤ bs := by
          rw [hbs]
          exact hropt bg hbg
        omega
      obtain ⟨g'', hg''⟩ := mm_second_pass_exists ⟨r, hsub hr, hrbs, hr⟩
      rw [hg''] at hsecond
      exact Option.noConfusion hsecond
    · rw [hsecond] at h
      obtain rfl : g' = g := by injection h
      obtain ⟨hgall, hworst, hgrem⟩ := mm_second_pass_some hsecond
      refine ⟨hgall, ?_, fun _ => hgrem⟩
      intro y hy
      rw [hworst, hbs]
      exact hmin y hy

/-- C3: the guess returned by `minimax_guess` has worst-case partition size no
larger than that of every code in `all_codes`; and whenever some member of
`remaining` attains that minimal worst-case size, the returned guess is itself
a member of `remaining`. -/
theorem minimax_guess_optimal (remaining all_codes : List Code) (g : Code)
    (hne : remaining ≠ []) (hsub : remaining ⊆ all_codes)
    (h : minimax_guess remaining all_codes = some g) :
    (∀ g' ∈ all_codes, worst_partition remaining g ≤ worst_partition remaining g') ∧
    ((∃ r ∈ remaining, ∀ g' ∈ all_codes,
        worst_partition remaining r ≤ worst_partition remaining g') → g ∈ remaining) :=
  ⟨(minimax_guess_min_aux remaining all_codes g hsub h).2.1,
    (minimax_guess_min_aux remaining all_codes g hsub h).2.2⟩

/-- Witness for C3 at `remaining = [[red]]`, `all_codes = [[red],[yellow]]`:
the returned guess is `[red]`. -/
theorem minimax_guess_optimal_witness :
    (([["red"]] : List Code) ≠ [] ∧ ([["red"]] : List Code) ⊆ [["red"], ["yellow"]] ∧
      minimax_guess [["red"]] [["red"], ["yellow"]] = some ["red"]) ∧
    ((∀ g' ∈ ([["red"], ["yellow"]] : List Code),
        worst_partition [["red"]] ["red"] ≤ worst_partition [["red"]] g') ∧
      ((∃ r ∈ ([["red"]] : List Code), ∀ g' ∈ ([["red"], ["yellow"]] : List Code),
          worst_partition [["red"]] r ≤ worst_partition [["red"]] g') →
        (["red"] : Code) ∈ ([["red"]] : List Code))) := by
  have h1 : ([["red"]] : List Code) ≠ [] := by decide
  have h2 : ([["red"]] : List Code) ⊆ [["red"], ["yellow"]] := by
    intro x hx
    rcases List.mem_singleton.mp hx with rfl
    simp
  have h3 : minimax_guess [["red"]] [["red"], ["yellow"]] = some ["red"] := by decide
  exact ⟨⟨h1, h2, h3⟩, minimax_guess_optimal _ _ _ h1 h2 h3⟩

/-- C6: in the scored-inference phase (constraint.py lines 66-80, used by
`li_phase2`) the selected guess is a member of `remaining` achieving the
minimum of `score premises` — the sum over premises of
`|black difference| + |white difference|` — and it is the *first* minimizer in
enumeration order: every earlier candidate scores strictly worse. -/
theorem scored_inference_selection (premises : List (Code × Feedback))
    (remaining : List Code) (s : Int) (c : Code)
    (h : argmin_first (score premises) remaining = some (s, c)) :
    c ∈ remaining ∧ s = score premises c ∧
    (∀ d ∈ remaining, score premises c ≤ score premises d) ∧
    ∃ l₁ l₂, remaining = l₁ ++ c :: l₂ ∧ ∀ d ∈ l₁, score premises c < score premises d := by
  obtain ⟨h1, h2, h3, h4⟩ := argmin_first_spec _ _ _ _ h
  exact ⟨h2, h1, h3, h4⟩

/-- Witness for C6: with one premise `([red], (0,0))` and candidates
`[[red], [yellow]]`, the first minimizer is `[yellow]` with score 0. -/
theorem scored_inference_selection_witness :
    argmin_first (score [(["red"], ((0 : ℕ), (0 : ℤ)))]) [["red"], ["yellow"]] =
      some (0, ["yellow"]) ∧
    ((["yellow"] : Code) ∈ ([["red"], ["yellow"]] : List Code) ∧
      (0 : ℤ) = score [(["red"], ((0 : ℕ), (0 : ℤ)))] ["yellow"] ∧
      (∀ d ∈ ([["red"], ["yellow"]] : List Code),
        score [(["red"], ((0 : ℕ), (0 : ℤ)))] ["yellow"] ≤
          score [(["red"], ((0 : ℕ), (0 : ℤ)))] d) ∧
      ∃ l₁ l₂, ([["red"], ["yellow"]] : List Code) = l₁ ++ ["yellow"] :: l₂ ∧
        ∀ d ∈ l₁, score [(["red"], ((0 : ℕ), (0 : ℤ)))] ["yellow"] <
          score [(["red"], ((0 : ℕ), (0 : ℤ)))] d) := by
  have h : argmin_first (score [(["red"], ((0 : ℕ), (0 : ℤ)))]) [["red"], ["yellow"]] =
      some (0, ["yellow"]) := by decide
  exact ⟨h, scored_inference_selection _ _ _ _ h⟩

/-! ### Unfolding the phase-2 loop of constraint.py one turn at a time -/

lemma li_phase2_step_solved {secret : Code} {pegs : Nat} {rng : Nat → Nat} {fuel : Nat}
    {st : LIState} {s : Int} {c : Code}
    (hrem : ¬ st.remaining = [])
    (harg : argmin_first (score st.premises) st.remaining = some (s, c))
    (hfb : get_feedback secret c = (pegs, 0)) :
    li_phase2 secret pegs rng (fuel + 1) st =
      (st.history ++ [c],
        (st.evs ++ [.turnMsg (st.turn + 1) c (get_feedback secret c)]) ++
          [.solvedMsg (st.turn + 1)]) := by
  rw [li_phase2, if_neg hrem]
  simp only [harg, hfb]
  simp

lemma li_phase2_step_exhausted {secret : Code} {pegs : Nat} {rng : Nat → Nat} {fuel : Nat}
    {st : LIState} {s : Int} {c : Code}
    (hrem : ¬ st.remaining = [])
    (harg : argmin_first (score st.premises) st.remaining = some (s, c))
    (hfb : ¬ get_feedback secret c = (pegs, 0))
    (hrem' : filter_premises st.remaining
      (st.premises ++ [(c, get_feedback secret c)]) = []) :
    li_phase2 secret pegs rng (fuel + 1) st =
      (st.history ++ [c],
        (st.evs ++ [.turnMsg (st.turn + 1) c (get_feedback secret c)]) ++
          [.exhaustedMsg]) := by
  rw [li_phase2, if_neg hrem]
  simp only [harg, hrem', if_neg hfb]
  simp

lemma li_phase2_step_next {secret : Code} {pegs : Nat} {rng : Nat → Nat} {fuel : Nat}
    {st : LIState} {s : Int} {c : Code}
    (hrem : ¬ st.remaining = [])
    (harg : argmin_first (score st.premises) st.remaining = some (s, c))
    (hfb : ¬ get_feedback secret c = (pegs, 0))
    (hrem' : ¬ filter_premises st.remaining
      (st.premises ++ [(c, get_feedback secret c)]) = []) :
    li_phase2 secret pegs rng (fuel + 1) st =
      li_phase2 secret pegs rng fuel
        ⟨filter_premises st.remaining (st.premises ++ [(c, get_feedback secret c)]),
          st.premises ++ [(c, get_feedback secret c)],
          st.history ++ [c], st.turn + 1,
          st.evs ++ [.turnMsg (st.turn + 1) c (get_feedback secret c)], st.k⟩ := by
  rw [li_phase2, if_neg hrem]
  simp only [harg, if_neg hfb, if_neg hrem']

/-- Main invariant lemma for `li_phase2`: when the secret is among the
candidates, the premises are honest, all candidates have length `pegs` and the
fuel covers the candidate count, the loop ends in the solved branch: the final
guess is the secret, at most `|remaining|` further turns are used, a solved
message is printed, and no exhausted message ever is. -/
lemma li_phase2_spec (secret : Code) (pegs : Nat) (rng : Nat → Nat) :
    ∀ (fuel : Nat) (st : LIState),
      secret ∈ st.remaining →
      (∀ gf ∈ st.premises, gf.2 = get_feedback secret gf.1) →
      (∀ c ∈ st.remaining, c.length = pegs) →
      st.remaining.length ≤ fuel →
      (li_phase2 secret pegs rng fuel st).1.getLast? = some secret ∧
      (li_phase2 secret pegs rng fuel st).1.length ≤
        st.history.length + st.remaining.length ∧
      (∃ t, Ev.solvedMsg t ∈ (li_phase2 secret pegs rng fuel st).2) ∧
      (Ev.exhaustedMsg ∉ st.evs → Ev.exhaustedMsg ∉ (li_phase2 secret pegs rng fuel st).2) := by
  intro fuel
  induction fuel with
  | zero =>
    intro st hsec _ _ hfuel
    have h0 : st.remaining = [] := List.eq_nil_of_length_eq_zero (Nat.le_zero.mp hfuel)
    rw [h0] at hsec
    simp at hsec
  | succ fuel ih =>
    intro st hsec hprem hlen hfuel
    have hrem : ¬ st.remaining = [] := by
      intro h
      rw [h] at hsec
      simp at hsec
    have hpos : 0 < st.remaining.length := List.length_pos_of_mem hsec
    rcases harg : argmin_first (score st.premises) st.remaining with - | ⟨s, c⟩
    · exact absurd ((argmin_first_eq_none _ _).mp harg) hrem
    obtain ⟨-, hc, -, -⟩ := argmin_first_spec _ _ _ _ harg
    by_cases hfb : get_feedback secret c = (pegs, 0)
    · have hcsec : c = secret :=
        (get_feedback_eq_solved_iff (hlen secret hsec) (hlen c hc)).mp hfb
      rw [li_phase2_step_solved hrem harg hfb]
      refine ⟨?_, ?_, ⟨st.turn + 1, by simp⟩, ?_⟩
      · rw [hcsec]
        exact List.getLast?_concat _
      · simp only [List.length_append, List.length_cons, List.length_nil]
        omega
      · intro hnx
        simp [List.mem_append, hnx]
    · have hnew : ∀ gf ∈ st.premises ++ [(c, get_feedback secret c)],
          gf.2 = get_feedback secret gf.1 := by
        intro gf hgf
        rcases List.mem_append.mp hgf with h | h
        · exact hprem gf h
        · rw [List.mem_singleton] at h
          rw [h]
      have hsec' : secret ∈ filter_premises st.remaining
          (st.premises ++ [(c, get_feedback secret c)]) := by
        rw [mem_filter_premises]
        exact ⟨hsec, fun gf hgf => (hnew gf hgf).symm⟩
      have hrem' : ¬ filter_premises st.remaining
          (st.premises ++ [(c, get_feedback secret c)]) = [] := by
        intro h
        rw [h] at hsec'
        simp at hsec'
      have hmem : (c, get_feedback secret c) ∈
          st.premises ++ [(c, get_feedback secret c)] := by simp
      have hshrink : (filter_premises st.remaining
          (st.premises ++ [(c, get_feedback secret c)])).length < st.remaining.length := by
        refine filter_premises_length_lt hc hmem ?_
        rw [get_feedback_self, hlen c hc]
        intro hcon
        exact hfb hcon.symm
      rw [li_phase2_step_next hrem harg hfb hrem']
      obtain ⟨ih1, ih2, ih3, ih4⟩ := ih
        ⟨filter_premises st.remaining (st.premises ++ [(c, get_feedback secret c)]),
          st.premises ++ [(c, get_feedback secret c)], st.history ++ [c], st.turn + 1,
          st.evs ++ [.turnMsg (st.turn + 1) c (get_feedback secret c)], st.k⟩
        hsec' hnew
        (fun d hd => hlen d (mem_filter_premises.mp hd).1)
        (by dsimp only; omega)
      refine ⟨ih1, ?_, ih3, ?_⟩
      · refine le_trans ih2 ?_
        dsimp only
        simp only [List.length_append, List.length_cons, List.length_nil]
        omega
      · intro hnx
        refine ih4 ?_
        simp [List.mem_append, hnx]

/-! ### Phase 1 of constraint.py -/

lemma li_phase1_step_solved {secret : Code} {pegs : Nat} {rng : Nat → Nat} {n : Nat}
    {st : LIState}
    (hfb : get_feedback secret (st.remaining.getD (rng st.k % st.remaining.length) []) =
      (pegs, 0)) :
    li_phase1 secret pegs rng (n + 1) st =
      .inl (st.history ++ [st.remaining.getD (rng st.k % st.remaining.length) []],
        (st.evs ++ [.turnMsg (st.turn + 1)
            (st.remaining.getD (rng st.k % st.remaining.length) [])
            (get_feedback secret (st.remaining.getD (rng st.k % st.remaining.length) []))]) ++
          [.solvedMsg (st.turn + 1)]) := by
  rw [li_phase1]
  simp only [hfb]
  simp

lemma li_phase1_step_next {secret : Code} {pegs : Nat} {rng : Nat → Nat} {n : Nat}
    {st : LIState}
    (hfb : ¬ get_feedback secret (st.remaining.getD (rng st.k % st.remaining.length) []) =
      (pegs, 0)) :
    li_phase1 secret pegs rng (n + 1) st =
      li_phase1 secret pegs rng n
        ⟨filter_one st.remaining (st.remaining.getD (rng st.k % st.remaining.length) [])
            (get_feedback secret (st.remaining.getD (rng st.k % st.remaining.length) [])),
          st.premises ++ [(st.remaining.getD (rng st.k % st.remaining.length) [],
            get_feedback secret (st.remaining.getD (rng st.k % st.remaining.length) []))],
          st.history ++ [st.remaining.getD (rng st.k % st.remaining.length) []],
          st.turn + 1,
          st.evs ++ [.turnMsg (st.turn + 1)
            (st.remaining.getD (rng st.k % st.remaining.length) [])
            (get_feedback secret (st.remaining.getD (rng st.k % st.remaining.length) []))],
          st.k + 1⟩ := by
  rw [li_phase1]
  simp only [if_neg hfb]

/-- Main invariant lemma for `li_phase1`: under the same invariants as
`li_phase2_spec`, phase 1 either returns solved (final guess = secret), or
hands phase 2 a state still satisfying the invariants, with the measure
`|history| + |remaining|` not increased. -/
lemma li_phase1_spec (secret : Code) (pegs : Nat) (rng : Nat → Nat) :
    ∀ (n : Nat) (st : LIState),
      secret ∈ st.remaining →
      (∀ gf ∈ st.premises, gf.2 = get_feedback secret gf.1) →
      (∀ c ∈ st.remaining, c.length = pegs) →
      (match li_phase1 secret pegs rng n st with
       | .inl res => res.1.getLast? = some secret ∧
           res.1.length ≤ st.history.length + st.remaining.length ∧
           (∃ t, Ev.solvedMsg t ∈ res.2) ∧
           (Ev.exhaustedMsg ∉ st.evs → Ev.exhaustedMsg ∉ res.2)
       | .inr st' => secret ∈ st'.remaining ∧
           (∀ gf ∈ st'.premises, gf.2 = get_feedback secret gf.1) ∧
           (∀ c ∈ st'.remaining, c.length = pegs) ∧
           st'.history.length + st'.remaining.length ≤
             st.history.length + st.remaining.length ∧
           (Ev.exhaustedMsg ∉ st.evs → Ev.exhaustedMsg ∉ st'.evs)) := by
  intro n
  induction n with
  | zero =>
    intro st hsec hprem hlen
    exact ⟨hsec, hprem, hlen, le_refl _, fun h => h⟩
  | succ n ih =>
    intro st hsec hprem hlen
    have hpos : 0 < st.remaining.length := List.length_pos_of_mem hsec
    have hidx : rng st.k % st.remaining.length < st.remaining.length :=
      Nat.mod_lt _ hpos
    have hguess : st.remaining.getD (rng st.k % st.remaining.length) [] ∈ st.remaining := by
      rw [List.getD_eq_getElem _ _ hidx]
      exact List.getElem_mem _
    by_cases hfb : get_feedback secret
        (st.remaining.getD (rng st.k % st.remaining.length) []) = (pegs, 0)
    · rw [li_phase1_step_solved hfb]
      have hgsec : st.remaining.getD (rng st.k % st.remaining.length) [] = secret :=
        (get_feedback_eq_solved_iff (hlen secret hsec) (hlen _ hguess)).mp hfb
      refine ⟨?_, ?_, ⟨st.turn + 1, by simp⟩, ?_⟩
      · rw [hgsec]
        exact List.getLast?_concat _
      · simp only [List.length_append, List.length_cons, List.length_nil]
        omega
      · intro hnx
        simp [List.mem_append, hnx]
    · rw [li_phase1_step_next hfb]
      have hshrink : (filter_one st.remaining
          (st.remaining.getD (rng st.k % st.remaining.length) [])
          (get_feedback secret
            (st.remaining.getD (rng st.k % st.remaining.length) []))).length <
          st.remaining.length := by
        refine filter_one_length_lt hguess ?_
        rw [get_feedback_self, hlen _ hguess]
        intro hcon
        exact hfb hcon.symm
      have hres := ih
        ⟨filter_one st.remaining (st.remaining.getD (rng st.k % st.remaining.length) [])
            (get_feedback secret (st.remaining.getD (rng st.k % st.remaining.length) [])),
          st.premises ++ [(st.remaining.getD (rng st.k % st.remaining.length) [],
            get_feedback secret (st.remaining.getD (rng st.k % st.remaining.length) []))],
          st.history ++ [st.remaining.getD (rng st.k % st.remaining.length) []],
          st.turn + 1,
          st.evs ++ [.turnMsg (st.turn + 1)
            (st.remaining.getD (rng st.k % st.remaining.length) [])
            (get_feedback secret (st.remaining.getD (rng st.k % st.remaining.length) []))],
          st.k + 1⟩
        (mem_filter_one.mpr ⟨hsec, rfl⟩)
        (by
          intro gf hgf
          rcases List.mem_append.mp hgf with h | h
          · exact hprem gf h
          · rw [List.mem_singleton] at h
            rw [h])
        (fun d hd => hlen d (mem_filter_one.mp hd).1)
      rcases hcall : li_phase1 secret pegs rng n
          (⟨filter_one st.remaining (st.remaining.getD (rng st.k % st.remaining.length) [])
              (get_feedback secret (st.remaining.getD (rng st.k % st.remaining.length) [])),
            st.premises ++ [(st.remaining.getD (rng st.k % st.remaining.length) [],
              get_feedback secret (st.remaining.getD (rng st.k % st.remaining.length) []))],
            st.history ++ [st.remaining.getD (rng st.k % st.remaining.length) []],
            st.turn + 1,
            st.evs ++ [.turnMsg (st.turn + 1)
              (st.remaining.getD (rng st.k % st.remaining.length) [])
              (get_feedback secret (st.remaining.getD (rng st.k % st.remaining.length) []))],
            st.k + 1⟩ : LIState) with res | st'
      · simp only [hcall] at hres ⊢
        obtain ⟨h1, h2, h3, h4⟩ := hres
        refine ⟨h1, ?_, h3, ?_⟩
        · refine le_trans h2 ?_
          dsimp only
          simp only [List.length_append, List.length_cons, List.length_nil]
          omega
        · intro hnx
          refine h4 ?_
          simp [List.mem_append, hnx]
      · simp only [hcall] at hres ⊢
        obtain ⟨h1, h2, h3, h4, h5⟩ := hres
        refine ⟨h1, h2, h3, ?_, ?_⟩
        · refine le_trans h4 ?_
          dsimp only
          simp only [List.length_append, List.length_cons, List.length_nil]
          omega
        · intro hnx
          refine h5 ?_
          simp [List.mem_append, hnx]

/-- End-to-end behaviour of `logical_inference_solver` for a valid secret:
with fuel `|colors|^pegs` the run solves — the final guess is the secret, at
most `|colors|^pegs` turns are used, the solved message is printed and the
exhausted message never is. -/
lemma logical_inference_solver_spec (secret : Code) (pegs : Nat) (colors : List Symbol)
    (n : Nat) (rng : Nat → Nat)
    (hs : secret.length = pegs) (hmem : ∀ c ∈ secret, c ∈ colors) :
    (logical_inference_solver secret pegs colors n rng (colors.length ^ pegs)).1.getLast? =
      some secret ∧
    (logical_inference_solver secret pegs colors n rng (colors.length ^ pegs)).1.length ≤
      colors.length ^ pegs ∧
    (∃ t, Ev.solvedMsg t ∈
      (logical_inference_solver secret pegs colors n rng (colors.length ^ pegs)).2) ∧
    Ev.exhaustedMsg ∉
      (logical_inference_solver secret pegs colors n rng (colors.length ^ pegs)).2 := by
  have hsec0 : secret ∈ product_codes colors pegs := mem_product_codes.mpr ⟨hs, hmem⟩
  have hlen0 : ∀ c ∈ product_codes colors pegs, c.length = pegs :=
    fun c hc => (mem_product_codes.mp hc).1
  have hN : (product_codes colors pegs).length = colors.length ^ pegs :=
    length_product_codes _ _
  have h1 := li_phase1_spec secret pegs rng n
    ⟨product_codes colors pegs, [], [], 0, [], 0⟩ hsec0 (by simp) hlen0
  rcases hcall : li_phase1 secret pegs rng n
      (⟨product_codes colors pegs, [], [], 0, [], 0⟩ : LIState) with res | st'
  · simp only [hcall] at h1
    obtain ⟨a, b, c, d⟩ := h1
    have hsolver : logical_inference_solver secret pegs colors n rng
        (colors.length ^ pegs) = res := by
      simp only [logical_inference_solver, hcall]
    rw [hsolver]
    simp only [List.length_nil] at b
    refine ⟨a, by omega, c, d (by simp)⟩
  · simp only [hcall] at h1
    obtain ⟨i1, i2, i3, i4, i5⟩ := h1
    have hsolver : logical_inference_solver secret pegs colors n rng
        (colors.length ^ pegs) = li_phase2 secret pegs rng (colors.length ^ pegs) st' := by
      simp only [logical_inference_solver, hcall]
    rw [hsolver]
    simp only [List.length_nil] at i4
    obtain ⟨a, b, c, d⟩ := li_phase2_spec secret pegs rng (colors.length ^ pegs) st'
      i1 i2 i3 (by omega)
    refine ⟨a, by omega, c, d (i5 (by simp))⟩

/-! ### The minimax loop -/

lemma minimax_guess_isSome {remaining all_codes : List Code} (h : all_codes ≠ []) :
    ∃ g, minimax_guess remaining all_codes = some g := by
  unfold minimax_guess
  rcases hfirst : argmin_first (worst_partition remaining) all_codes with - | ⟨bs, bg⟩
  · exact absurd ((argmin_first_eq_none _ _).mp hfirst) h
  · simp only [hfirst]
    rcases hsecond : mm_second_pass remaining bs all_codes with - | g'
    · simp only [hsecond]
      exact ⟨bg, rfl⟩
    · simp only [hsecond]
      exact ⟨g', rfl⟩

lemma worst_partition_singleton (s g : Code) : worst_partition [s] g = 1 := by
  simp [worst_partition]

/-- When the candidate set is the singleton of the secret and the secret lies
in `all_codes`, `minimax_guess` returns the secret. -/
lemma minimax_guess_singleton {s : Code} {all_codes : List Code}
    (hmem : s ∈ all_codes) : minimax_guess [s] all_codes = some s := by
  unfold minimax_guess
  rcases hfirst : argmin_first (worst_partition [s]) all_codes with - | ⟨bs, bg⟩
  · rw [(argmin_first_eq_none _ _).mp hfirst] at hmem
    simp at hmem
  · obtain ⟨hbs, -, -, -⟩ := argmin_first_spec _ _ _ _ hfirst
    rw [worst_partition_singleton] at hbs
    obtain ⟨g2, hg2⟩ := @mm_second_pass_exists [s] bs all_codes
      ⟨s, hmem, by rw [worst_partition_singleton, hbs], by simp⟩
    simp only [hfirst, hg2]
    obtain ⟨-, -, hg2s⟩ := mm_second_pass_some hg2
    rw [List.mem_singleton] at hg2s
    rw [hg2s]

lemma mm_loop_step_solved {secret : Code} {pegs : Nat} {all_codes : List Code}
    {fuel : Nat} {remaining history : List Code} {turn : Nat} {evs : List Ev} {g : Code}
    (hrem : ¬ remaining = [])
    (hg : (if turn + 1 = 1 then initial_guess
      else (minimax_guess remaining all_codes).getD []) = g)
    (hfb : get_feedback secret g = (pegs, 0)) :
    mm_loop secret pegs all_codes (fuel + 1) remaining history turn evs =
      (history ++ [g],
        (evs ++ [.turnMsg (turn + 1) g (get_feedback secret g)]) ++
          [.solvedMsg (turn + 1)]) := by
  rw [mm_loop, if_neg hrem]
  simp only [hg, hfb]
  simp

lemma mm_loop_step_next {secret : Code} {pegs : Nat} {all_codes : List Code}
    {fuel : Nat} {remaining history : List Code} {turn : Nat} {evs : List Ev} {g : Code}
    (hrem : ¬ remaining = [])
    (hg : (if turn + 1 = 1 then initial_guess
      else (minimax_guess remaining all_codes).getD []) = g)
    (hfb : ¬ get_feedback secret g = (pegs, 0))
    (hrem' : ¬ mm_update remaining g (get_feedback secret g) = []) :
    mm_loop secret pegs all_codes (fuel + 1) remaining history turn evs =
      mm_loop secret pegs all_codes fuel
        (mm_update remaining g (get_feedback secret g))
        (history ++ [g]) (turn + 1)
        (if (filter_one remaining g (get_feedback secret g)).length = remaining.length
          then (evs ++ [.turnMsg (turn + 1) g (get_feedback secret g)]) ++ [.noProgressMsg]
          else evs ++ [.turnMsg (turn + 1) g (get_feedback secret g)]) := by
  rw [mm_loop, if_neg hrem]
  simp only [hg, if_neg hfb, if_neg hrem']

lemma mm_loop_step_exhausted {secret : Code} {pegs : Nat} {all_codes : List Code}
    {fuel : Nat} {remaining history : List Code} {turn : Nat} {evs : List Ev} {g : Code}
    (hrem : ¬ remaining = [])
    (hg : (if turn + 1 = 1 then initial_guess
      else (minimax_guess remaining all_codes).getD []) = g)
    (hfb : ¬ get_feedback secret g = (pegs, 0))
    (hrem' : mm_update remaining g (get_feedback secret g) = []) :
    mm_loop secret pegs all_codes (fuel + 1) remaining history turn evs =
      (history ++ [g],
        (if (filter_one remaining g (get_feedback secret g)).length = remaining.length
          then (evs ++ [.turnMsg (turn + 1) g (get_feedback secret g)]) ++ [.noProgressMsg]
          else evs ++ [.turnMsg (turn + 1) g (get_feedback secret g)]) ++
          [.exhaustedMsg]) := by
  rw [mm_loop, if_neg hrem]
  simp only [hg, if_neg hfb, hrem']
  simp

/-- Main invariant lemma for `mm_loop` from turn 2 on (`1 ≤ turn`): with the
secret among a duplicate-free candidate set drawn from `all_codes` and enough
fuel, the loop solves: final guess = secret, at most `|remaining|` further
turns, solved message printed, exhausted message never printed. -/
lemma mm_loop_spec (secret : Code) (pegs : Nat) (all_codes : List Code)
    (hsecall : secret ∈ all_codes)
    (hlenall : ∀ c ∈ all_codes, c.length = pegs) :
    ∀ (fuel : Nat) (remaining history : List Code) (turn : Nat) (evs : List Ev),
      secret ∈ remaining →
      remaining ⊆ all_codes →
      remaining.Nodup →
      1 ≤ turn →
      remaining.length ≤ fuel →
      (mm_loop secret pegs all_codes fuel remaining history turn evs).1.getLast? =
        some secret ∧
      (mm_loop secret pegs all_codes fuel remaining history turn evs).1.length ≤
        history.length + remaining.length ∧
      (∃ t, Ev.solvedMsg t ∈
        (mm_loop secret pegs all_codes fuel remaining history turn evs).2) ∧
      (Ev.exhaustedMsg ∉ evs → Ev.exhaustedMsg ∉
        (mm_loop secret pegs all_codes fuel remaining history turn evs).2) := by
  intro fuel
  induction fuel with
  | zero =>
    intro remaining history turn evs hsec _ _ _ hfuel
    have h0 : remaining = [] := List.eq_nil_of_length_eq_zero (Nat.le_zero.mp hfuel)
    rw [h0] at hsec
    simp at hsec
  | succ fuel ih =>
    intro remaining history turn evs hsec hsub hnd hturn hfuel
    have hrem : ¬ remaining = [] := by
      intro h
      rw [h] at hsec
      simp at hsec
    have hall_ne : all_codes ≠ [] := by
      intro h
      rw [h] at hsecall
      simp at hsecall
    obtain ⟨g, hgsome⟩ := @minimax_guess_isSome remaining all_codes hall_ne
    have hturn1 : ¬ (turn + 1 = 1) := by omega
    have hg : (if turn + 1 = 1 then initial_guess
        else (minimax_guess remaining all_codes).getD []) = g := by
      rw [if_neg hturn1, hgsome]
      rfl
    obtain ⟨hgall, hgmin, -⟩ := minimax_guess_min_aux remaining all_codes g hsub hgsome
    by_cases hfb : get_feedback secret g = (pegs, 0)
    · have hgsec : g = secret :=
        (get_feedback_eq_solved_iff (hlenall secret hsecall) (hlenall g hgall)).mp hfb
      rw [mm_loop_step_solved hrem hg hfb]
      have hpos := List.length_pos_of_mem hsec
      refine ⟨?_, ?_, ⟨turn + 1, by simp⟩, ?_⟩
      · rw [hgsec]
        exact List.getLast?_concat _
      · simp only [List.length_append, List.length_cons, List.length_nil]
        omega
      · intro hnx
        simp [List.mem_append, hnx]
    · have hshrink : (filter_one remaining g (get_feedback secret g)).length <
          remaining.length := by
        rcases Nat.lt_or_ge remaining.length 2 with h2 | h2
        · exfalso
          have hpos := List.length_pos_of_mem hsec
          have h1 : remaining.length = 1 := by omega
          obtain ⟨a, ha⟩ := List.length_eq_one.mp h1
          have hsa : secret = a := by
            rw [ha] at hsec
            exact List.mem_singleton.mp hsec
          rw [← hsa] at ha
          rw [ha] at hgsome
          have := minimax_guess_singleton hsecall
          rw [this] at hgsome
          have hgsec : secret = g := by injection hgsome
          refine hfb ?_
          rw [← hgsec, get_feedback_self, hlenall secret hsecall]
        · have hws : worst_partition remaining secret ≤ remaining.length - 1 :=
            worst_partition_le_of_mem hnd h2 hsec (fun c hc => hlenall c (hsub hc))
          have hwg : worst_partition remaining g ≤ remaining.length - 1 :=
            le_trans (hgmin secret hsecall) hws
          have hclass : (filter_one remaining g (get_feedback secret g)).length ≤
              worst_partition remaining g := filter_class_le_worst hsec
          omega
      have hcond : ¬ (filter_one remaining g (get_feedback secret g)).length =
          remaining.length := by omega
      have hupd : mm_update remaining g (get_feedback secret g) =
          filter_one remaining g (get_feedback secret g) := by
        unfold mm_update
        rw [if_neg hcond]
      have hsec' : secret ∈ mm_update remaining g (get_feedback secret g) := by
        rw [hupd]
        exact mem_filter_one.mpr ⟨hsec, rfl⟩
      have hrem' : ¬ mm_update remaining g (get_feedback secret g) = [] := by
        intro h
        rw [h] at hsec'
        simp at hsec'
      rw [mm_loop_step_next hrem hg hfb hrem', hupd, if_neg hcond]
      obtain ⟨a, b, c, d⟩ := ih (filter_one remaining g (get_feedback secret g))
        (history ++ [g]) (turn + 1)
        (evs ++ [.turnMsg (turn + 1) g (get_feedback secret g)])
        (mem_filter_one.mpr ⟨hsec, rfl⟩)
        (fun x hx => hsub (mem_filter_one.mp hx).1)
        (hnd.filter _)
        (by omega)
        (by omega)
      refine ⟨a, ?_, c, ?_⟩
      · refine le_trans b ?_
        simp only [List.length_append, List.length_cons, List.length_nil]
        omega
      · intro hnx
        refine d ?_
        simp [List.mem_append, hnx]

/-- End-to-end behaviour of `mastermind_minimax_solver` for a valid secret
over a duplicate-free alphabet for which the fixed opening guess is a valid
code: with fuel `|colors|^pegs` the run solves — final guess = secret, at most
`|colors|^pegs` turns, solved message printed, exhausted message never. -/
lemma mastermind_minimax_solver_spec (secret : Code) (pegs : Nat) (colors : List Symbol)
    (hs : secret.length = pegs) (hmem : ∀ c ∈ secret, c ∈ colors)
    (hnd : colors.Nodup)
    (hil : initial_guess.length = pegs) (him : ∀ c ∈ initial_guess, c ∈ colors) :
    (mastermind_minimax_solver secret pegs colors (colors.length ^ pegs)).1.getLast? =
      some secret ∧
    (mastermind_minimax_solver secret pegs colors (colors.length ^ pegs)).1.length ≤
      colors.length ^ pegs ∧
    (∃ t, Ev.solvedMsg t ∈
      (mastermind_minimax_solver secret pegs colors (colors.length ^ pegs)).2) ∧
    Ev.exhaustedMsg ∉
      (mastermind_minimax_solver secret pegs colors (colors.length ^ pegs)).2 := by
  have hsec0 : secret ∈ product_codes colors pegs := mem_product_codes.mpr ⟨hs, hmem⟩
  have hlen0 : ∀ c ∈ product_codes colors pegs, c.length = pegs :=
    fun c hc => (mem_product_codes.mp hc).1
  have hN : (product_codes colors pegs).length = colors.length ^ pegs :=
    length_product_codes _ _
  have hnd0 : (product_codes colors pegs).Nodup := nodup_product_codes hnd pegs
  have hinit : initial_guess ∈ product_codes colors pegs :=
    mem_product_codes.mpr ⟨hil, him⟩
  have hpos : 0 < colors.length ^ pegs := by
    rw [← hN]
    exact List.length_pos_of_mem hsec0
  obtain ⟨m, hm⟩ : ∃ m, colors.length ^ pegs = m + 1 :=
    ⟨colors.length ^ pegs - 1, by omega⟩
  have hsolver : mastermind_minimax_solver secret pegs colors (colors.length ^ pegs) =
      mm_loop secret pegs (product_codes colors pegs) (m + 1)
        (product_codes colors pegs) [] 0 [] := by
    rw [mastermind_minimax_solver, hm]
  rw [hsolver]
  have hrem : ¬ product_codes colors pegs = [] := by
    intro h
    rw [h] at hsec0
    simp at hsec0
  have hg : (if 0 + 1 = 1 then initial_guess
      else (minimax_guess (product_codes colors pegs)
        (product_codes colors pegs)).getD []) = initial_guess := by
    rw [if_pos rfl]
  by_cases hfb : get_feedback secret initial_guess = (pegs, 0)
  · have hgsec : initial_guess = secret :=
      (get_feedback_eq_solved_iff hs hil).mp hfb
    rw [mm_loop_step_solved hrem hg hfb]
    refine ⟨?_, ?_, ⟨1, by simp⟩, by simp⟩
    · rw [hgsec]
      exact List.getLast?_concat _
    · simp only [List.length_append, List.length_cons, List.length_nil]
      omega
  · have hshrink : (filter_one (product_codes colors pegs) initial_guess
        (get_feedback secret initial_guess)).length <
        (product_codes colors pegs).length := by
      refine filter_one_length_lt hinit ?_
      rw [get_feedback_self, hil]
      intro hcon
      exact hfb hcon.symm
    have hcond : ¬ (filter_one (product_codes colors pegs) initial_guess
        (get_feedback secret initial_guess)).length =
        (product_codes colors pegs).length := by omega
    have hupd : mm_update (product_codes colors pegs) initial_guess
        (get_feedback secret initial_guess) =
        filter_one (product_codes colors pegs) initial_guess
          (get_feedback secret initial_guess) := by
      unfold mm_update
      rw [if_neg hcond]
    have hsec' : secret ∈ mm_update (product_codes colors pegs) initial_guess
        (get_feedback secret initial_guess) := by
      rw [hupd]
      exact mem_filter_one.mpr ⟨hsec0, rfl⟩
    have hrem' : ¬ mm_update (product_codes colors pegs) initial_guess
        (get_feedback secret initial_guess) = [] := by
      intro h
      rw [h] at hsec'
      simp at hsec'
    rw [mm_loop_step_next hrem hg hfb hrem', hupd, if_neg hcond]
    obtain ⟨a, b, c, d⟩ := mm_loop_spec secret pegs (product_codes colors pegs)
      hsec0 hlen0 m
      (filter_one (product_codes colors pegs) initial_guess
        (get_feedback secret initial_guess))
      ([] ++ [initial_guess]) 1
      ([] ++ [.turnMsg 1 initial_guess (get_feedback secret initial_guess)])
      (mem_filter_one.mpr ⟨hsec0, rfl⟩)
      (fun x hx => (mem_filter_one.mp hx).1)
      (hnd0.filter _)
      (le_refl 1)
      (by omega)
    refine ⟨a, ?_, c, ?_⟩
    · refine le_trans b ?_
      simp only [List.length_append, List.length_cons, List.length_nil]
      omega
    · refine d ?_
      simp

/-! ### The derived clauses are satisfied by the secret -/

/-- Parsing round-trip for the literals produced by
`derive_simple_cnf_constraints` (positions 1..PEGS, colors from COLORS). -/
lemma litString_parse : ∀ i < PEGS, ∀ c ∈ COLORS,
    (litString (i + 1) c).toList.headD ' ' = '~' ∧
    parseInsideChars ((litString (i + 1) c).toList.tail) =
      some (((i : Int) + 1), c) := by decide

lemma pyIndex_natCast (code : Code) {i : Nat} (hi : i < code.length) :
    pyIndex code (i : Int) = some code[i] := by
  unfold pyIndex
  rw [if_pos (Int.natCast_nonneg i)]
  simp [List.getElem?_eq_getElem hi]

lemma eval_litString (code : Code) {i : Nat} (hi : i < PEGS) {c : Symbol}
    (hc : c ∈ COLORS) (hlen : i < code.length) :
    eval_literal code (litString (i + 1) c) = .val (decide (code[i] ≠ c)) := by
  obtain ⟨h1, h2⟩ := litString_parse i hi c hc
  simp only [eval_literal, if_pos h1, h2]
  have h3 : ((i : Int) + 1 - 1) = (i : Int) := by ring
  rw [h3, pyIndex_natCast code hlen]

/-- When feedback against the secret reports zero black pegs, every clause
derived by `derive_simple_cnf_constraints` is satisfied by the secret (and
evaluates without error). -/
lemma derive_clauses_sat {secret guess : Code}
    (hs : secret.length = PEGS) (hg : guess.length = PEGS)
    (hgc : ∀ c ∈ guess, c ∈ COLORS) :
    ∀ clause ∈ derive_simple_cnf_constraints guess (get_feedback secret guess),
      clause_sat secret clause = .ok true := by
  intro clause hclause
  unfold derive_simple_cnf_constraints at hclause
  by_cases hb : (get_feedback secret guess).1 = 0
  · rw [if_pos hb] at hclause
    obtain ⟨i, hi, rfl⟩ := List.mem_map.mp hclause
    rw [List.mem_range] at hi
    have hig : i < guess.length := by omega
    have his : i < secret.length := by omega
    have hgetD : guess.getD i "" = guess[i] := List.getD_eq_getElem _ _ hig
    have hcol : guess.getD i "" ∈ COLORS := by
      rw [hgetD]
      exact hgc _ (List.getElem_mem _)
    have hzero : (List.zip secret guess).countP (fun p => p.1 == p.2) = 0 := by
      simpa [get_feedback] using hb
    have hne : secret[i] ≠ guess[i] := by
      have hizip : i < (List.zip secret guess).length := by
        rw [List.length_zip]
        omega
      have hmem : (secret[i], guess[i]) ∈ List.zip secret guess := by
        have := @List.getElem_zip _ _ secret guess i hizip
        rw [← this]
        exact List.getElem_mem _
      have := (List.countP_eq_zero.mp hzero) _ hmem
      simpa using this
    have heval := eval_litString secret hi hcol his
    rw [clause_sat, heval]
    have hval : decide (secret[i] ≠ guess.getD i "") = true := by
      rw [hgetD]
      simpa using hne
    rw [hval]
  · rw [if_neg hb] at hclause
    simp at hclause

lemma code_satisfies_cnf_of_all_sat {code : Code} :
    ∀ {cnf : List (List String)}, (∀ cl ∈ cnf, clause_sat code cl = .ok true) →
      code_satisfies_cnf code cnf = .ok true := by
  intro cnf
  induction cnf with
  | nil => intro _; rfl
  | cons cl rest ih =>
    intro h
    rw [code_satisfies_cnf, h cl (by simp)]
    exact ih (fun d hd => h d (by simp [hd]))

lemma cnf_holds_of_all_sat {code : Code} {cnf : List (List String)}
    (h : ∀ cl ∈ cnf, clause_sat code cl = .ok true) : cnf_holds code cnf = true := by
  rw [cnf_holds, code_satisfies_cnf_of_all_sat h]

/-! ### Unreachability of the "No candidates remain" branches -/

lemma li_phase2_no_exhaust (secret : Code) (pegs : Nat) (rng : Nat → Nat) :
    ∀ (fuel : Nat) (st : LIState),
      secret ∈ st.remaining →
      (∀ gf ∈ st.premises, gf.2 = get_feedback secret gf.1) →
      Ev.exhaustedMsg ∉ st.evs →
      Ev.exhaustedMsg ∉ (li_phase2 secret pegs rng fuel st).2 := by
  intro fuel
  induction fuel with
  | zero =>
    intro st _ _ hnx
    exact hnx
  | succ fuel ih =>
    intro st hsec hprem hnx
    have hrem : ¬ st.remaining = [] := by
      intro h
      rw [h] at hsec
      simp at hsec
    rcases harg : argmin_first (score st.premises) st.remaining with - | ⟨s, c⟩
    · exact absurd ((argmin_first_eq_none _ _).mp harg) hrem
    by_cases hfb : get_feedback secret c = (pegs, 0)
    · rw [li_phase2_step_solved hrem harg hfb]
      simp [List.mem_append, hnx]
    · have hnew : ∀ gf ∈ st.premises ++ [(c, get_feedback secret c)],
          gf.2 = get_feedback secret gf.1 := by
        intro gf hgf
        rcases List.mem_append.mp hgf with h | h
        · exact hprem gf h
        · rw [List.mem_singleton] at h
          rw [h]
      have hsec' : secret ∈ filter_premises st.remaining
          (st.premises ++ [(c, get_feedback secret c)]) :=
        mem_filter_premises.mpr ⟨hsec, fun gf hgf => (hnew gf hgf).symm⟩
      have hrem' : ¬ filter_premises st.remaining
          (st.premises ++ [(c, get_feedback secret c)]) = [] := by
        intro h
        rw [h] at hsec'
        simp at hsec'
      rw [li_phase2_step_next hrem harg hfb hrem']
      refine ih _ hsec' hnew ?_
      simp [List.mem_append, hnx]

lemma mm_loop_no_exhaust (secret : Code) (pegs : Nat) (all_codes : List Code)
    (hs : secret.length = pegs) :
    ∀ (fuel : Nat) (remaining history : List Code) (turn : Nat) (evs : List Ev),
      secret ∈ remaining →
      Ev.exhaustedMsg ∉ evs →
      Ev.exhaustedMsg ∉
        (mm_loop secret pegs all_codes fuel remaining history turn evs).2 := by
  intro fuel
  induction fuel with
  | zero =>
    intro remaining history turn evs _ hnx
    exact hnx
  | succ fuel ih =>
    intro remaining history turn evs hsec hnx
    have hrem : ¬ remaining = [] := by
      intro h
      rw [h] at hsec
      simp at hsec
    obtain ⟨g, hg⟩ : ∃ g, (if turn + 1 = 1 then initial_guess
        else (minimax_guess remaining all_codes).getD []) = g := ⟨_, rfl⟩
    by_cases hfb : get_feedback secret g = (pegs, 0)
    · rw [mm_loop_step_solved hrem hg hfb]
      simp [List.mem_append, hnx]
    · have hgne : g ≠ secret := by
        intro he
        refine hfb ?_
        rw [he, get_feedback_self, hs]
      have hsec' : secret ∈ mm_update remaining g (get_feedback secret g) := by
        unfold mm_update
        by_cases hcond : (filter_one remaining g (get_feedback secret g)).length =
            remaining.length
        · rw [if_pos hcond]
          exact (List.mem_erase_of_ne (fun hse => hgne hse.symm)).mpr hsec
        · rw [if_neg hcond]
          exact mem_filter_one.mpr ⟨hsec, rfl⟩
      have hrem' : ¬ mm_update remaining g (get_feedback secret g) = [] := by
        intro h
        rw [h] at hsec'
        simp at hsec'
      rw [mm_loop_step_next hrem hg hfb hrem']
      refine ih _ _ _ _ hsec' ?_
      by_cases hcond : (filter_one remaining g (get_feedback secret g)).length =
          remaining.length
      · rw [if_pos hcond]
        simp [List.mem_append, hnx]
      · rw [if_neg hcond]
        simp [List.mem_append, hnx]

lemma cnf_phase1_step_solved {secret : Code} {rng : Nat → Nat} {n : Nat} {st : CNFState}
    (hrem : ¬ st.remaining = [])
    (hfb : get_feedback secret (st.remaining.getD (rng st.k % st.remaining.length) []) =
      (PEGS, 0)) :
    cnf_phase1 secret rng (n + 1) st =
      .inl (st.history ++ [st.remaining.getD (rng st.k % st.remaining.length) []],
        (st.evs ++ [.turnMsg (st.turn + 1)
            (st.remaining.getD (rng st.k % st.remaining.length) [])
            (get_feedback secret (st.remaining.getD (rng st.k % st.remaining.length) []))]) ++
          [.solvedMsg (st.turn + 1)]) := by
  rw [cnf_phase1, if_neg hrem]
  simp only [hfb]
  simp

lemma cnf_phase1_step_next {secret : Code} {rng : Nat → Nat} {n : Nat} {st : CNFState}
    (hrem : ¬ st.remaining = [])
    (hfb : ¬ get_feedback secret (st.remaining.getD (rng st.k % st.remaining.length) []) =
      (PEGS, 0)) :
    cnf_phase1 secret rng (n + 1) st =
      cnf_phase1 secret rng n
        ⟨filter_cnf (filter_premises st.remaining
            (st.premises ++ [(st.remaining.getD (rng st.k % st.remaining.length) [],
              get_feedback secret (st.remaining.getD (rng st.k % st.remaining.length) []))]))
            (st.cnf ++ derive_simple_cnf_constraints
              (st.remaining.getD (rng st.k % st.remaining.length) [])
              (get_feedback secret (st.remaining.getD (rng st.k % st.remaining.length) []))),
          st.premises ++ [(st.remaining.getD (rng st.k % st.remaining.length) [],
            get_feedback secret (st.remaining.getD (rng st.k % st.remaining.length) []))],
          st.cnf ++ derive_simple_cnf_constraints
            (st.remaining.getD (rng st.k % st.remaining.length) [])
            (get_feedback secret (st.remaining.getD (rng st.k % st.remaining.length) [])),
          st.history ++ [st.remaining.getD (rng st.k % st.remaining.length) []],
          st.turn + 1,
          st.evs ++ [.turnMsg (st.turn + 1)
            (st.remaining.getD (rng st.k % st.remaining.length) [])
            (get_feedback secret (st.remaining.getD (rng st.k % st.remaining.length) []))],
          st.k + 1⟩ := by
  rw [cnf_phase1, if_neg hrem]
  simp only [if_neg hfb]

lemma cnf_phase2_step_solved {secret : Code} {rng : Nat → Nat} {fuel : Nat} {st : CNFState}
    (hrem : ¬ st.remaining = [])
    (hfb : get_feedback secret (st.remaining.getD (rng st.k % st.remaining.length) []) =
      (PEGS, 0)) :
    cnf_phase2 secret rng (fuel + 1) st =
      (st.history ++ [st.remaining.getD (rng st.k % st.remaining.length) []],
        (st.evs ++ [.turnMsg (st.turn + 1)
            (st.remaining.getD (rng st.k % st.remaining.length) [])
            (get_feedback secret (st.remaining.getD (rng st.k % st.remaining.length) []))]) ++
          [.solvedMsg (st.turn + 1)]) := by
  rw [cnf_phase2, if_neg hrem]
  simp only [hfb]
  simp

lemma cnf_phase2_step_next {secret : Code} {rng : Nat → Nat} {fuel : Nat} {st : CNFState}
    (hrem : ¬ st.remaining = [])
    (hfb : ¬ get_feedback secret (st.remaining.getD (rng st.k % st.remaining.length) []) =
      (PEGS, 0))
    (hrem' : ¬ filter_cnf (filter_premises st.remaining
        (st.premises ++ [(st.remaining.getD (rng st.k % st.remaining.length) [],
          get_feedback secret (st.remaining.getD (rng st.k % st.remaining.length) []))]))
        (st.cnf ++ derive_simple_cnf_constraints
          (st.remaining.getD (rng st.k % st.remaining.length) [])
          (get_feedback secret (st.remaining.getD (rng st.k % st.remaining.length) []))) =
        []) :
    cnf_phase2 secret rng (fuel + 1) st =
      cnf_phase2 secret rng fuel
        ⟨filter_cnf (filter_premises st.remaining
            (st.premises ++ [(st.remaining.getD (rng st.k % st.remaining.length) [],
              get_feedback secret (st.remaining.getD (rng st.k % st.remaining.length) []))]))
            (st.cnf ++ derive_simple_cnf_constraints
              (st.remaining.getD (rng st.k % st.remaining.length) [])
              (get_feedback secret (st.remaining.getD (rng st.k % st.remaining.length) []))),
          st.premises ++ [(st.remaining.getD (rng st.k % st.remaining.length) [],
            get_feedback secret (st.remaining.getD (rng st.k % st.remaining.length) []))],
          st.cnf ++ derive_simple_cnf_constraints
            (st.remaining.getD (rng st.k % st.remaining.length) [])
            (get_feedback secret (st.remaining.getD (rng st.k % st.remaining.length) [])),
          st.history ++ [st.remaining.getD (rng st.k % st.remaining.length) []],
          st.turn + 1,
          st.evs ++ [.turnMsg (st.turn + 1)
            (st.remaining.getD (rng st.k % st.remaining.length) [])
            (get_feedback secret (st.remaining.getD (rng st.k % st.remaining.length) []))],
          st.k + 1⟩ := by
  rw [cnf_phase2, if_neg hrem]
  simp only [if_neg hfb, if_neg hrem']

/-- One CNF-solver filtering step preserves all run invariants: the secret
stays in the candidate set, the premises stay honest, every accumulated clause
stays satisfied by the secret, and all candidates stay valid codes. -/
lemma cnf_step_invariant {secret : Code} (hs : secret.length = PEGS)
    {remaining : List Code} {premises : List (Code × Feedback)}
    {cnf : List (List String)} {guess : Code}
    (hsec : secret ∈ remaining)
    (hprem : ∀ gf ∈ premises, gf.2 = get_feedback secret gf.1)
    (hcnf : ∀ cl ∈ cnf, clause_sat secret cl = .ok true)
    (hvalid : ∀ c ∈ remaining, c.length = PEGS ∧ ∀ x ∈ c, x ∈ COLORS)
    (hguess : guess ∈ remaining) :
    (∀ gf ∈ premises ++ [(guess, get_feedback secret guess)],
      gf.2 = get_feedback secret gf.1) ∧
    (∀ cl ∈ cnf ++ derive_simple_cnf_constraints guess (get_feedback secret guess),
      clause_sat secret cl = .ok true) ∧
    secret ∈ filter_cnf
      (filter_premises remaining (premises ++ [(guess, get_feedback secret guess)]))
      (cnf ++ derive_simple_cnf_constraints guess (get_feedback secret guess)) ∧
    (∀ c ∈ filter_cnf
      (filter_premises remaining (premises ++ [(guess, get_feedback secret guess)]))
      (cnf ++ derive_simple_cnf_constraints guess (get_feedback secret guess)),
      c.length = PEGS ∧ ∀ x ∈ c, x ∈ COLORS) := by
  have hprem' : ∀ gf ∈ premises ++ [(guess, get_feedback secret guess)],
      gf.2 = get_feedback secret gf.1 := by
    intro gf hgf
    rcases List.mem_append.mp hgf with h | h
    · exact hprem gf h
    · rw [List.mem_singleton] at h
      rw [h]
  have hcnf' : ∀ cl ∈ cnf ++ derive_simple_cnf_constraints guess
      (get_feedback secret guess), clause_sat secret cl = .ok true := by
    intro cl hcl
    rcases List.mem_append.mp hcl with h | h
    · exact hcnf cl h
    · exact derive_clauses_sat hs (hvalid guess hguess).1 (hvalid guess hguess).2 cl h
  refine ⟨hprem', hcnf', ?_, ?_⟩
  · refine mem_filter_cnf.mpr ⟨?_, cnf_holds_of_all_sat hcnf'⟩
    exact mem_filter_premises.mpr ⟨hsec, fun gf hgf => (hprem' gf hgf).symm⟩
  · intro c hc
    exact hvalid c (mem_filter_premises.mp (mem_filter_cnf.mp hc).1).1

lemma cnf_phase2_no_exhaust (secret : Code) (rng : Nat → Nat)
    (hs : secret.length = PEGS) :
    ∀ (fuel : Nat) (st : CNFState),
      secret ∈ st.remaining →
      (∀ gf ∈ st.premises, gf.2 = get_feedback secret gf.1) →
      (∀ cl ∈ st.cnf, clause_sat secret cl = .ok true) →
      (∀ c ∈ st.remaining, c.length = PEGS ∧ ∀ x ∈ c, x ∈ COLORS) →
      Ev.exhaustedMsg ∉ st.evs →
      Ev.exhaustedMsg ∉ (cnf_phase2 secret rng fuel st).2 := by
  intro fuel
  induction fuel with
  | zero =>
    intro st _ _ _ _ hnx
    exact hnx
  | succ fuel ih =>
    intro st hsec hprem hcnf hvalid hnx
    have hrem : ¬ st.remaining = [] := by
      intro h
      rw [h] at hsec
      simp at hsec
    have hpos : 0 < st.remaining.length := List.length_pos_of_mem hsec
    have hguess : st.remaining.getD (rng st.k % st.remaining.length) [] ∈
        st.remaining := by
      rw [List.getD_eq_getElem _ _ (Nat.mod_lt _ hpos)]
      exact List.getElem_mem _
    by_cases hfb : get_feedback secret
        (st.remaining.getD (rng st.k % st.remaining.length) []) = (PEGS, 0)
    · rw [cnf_phase2_step_solved hrem hfb]
      simp [List.mem_append, hnx]
    · obtain ⟨hprem', hcnf', hsec', hvalid'⟩ :=
        cnf_step_invariant hs hsec hprem hcnf hvalid hguess
      have hrem' : ¬ filter_cnf (filter_premises st.remaining
          (st.premises ++ [(st.remaining.getD (rng st.k % st.remaining.length) [],
            get_feedback secret (st.remaining.getD (rng st.k % st.remaining.length) []))]))
          (st.cnf ++ derive_simple_cnf_constraints
            (st.remaining.getD (rng st.k % st.remaining.length) [])
            (get_feedback secret
              (st.remaining.getD (rng st.k % st.remaining.length) []))) = [] := by
        intro h
        rw [h] at hsec'
        simp at hsec'
      rw [cnf_phase2_step_next hrem hfb hrem']
      refine ih _ hsec' hprem' hcnf' hvalid' ?_
      simp [List.mem_append, hnx]

lemma cnf_phase1_no_exhaust (secret : Code) (rng : Nat → Nat)
    (hs : secret.length = PEGS) :
    ∀ (n : Nat) (st : CNFState),
      secret ∈ st.remaining →
      (∀ gf ∈ st.premises, gf.2 = get_feedback secret gf.1) →
      (∀ cl ∈ st.cnf, clause_sat secret cl = .ok true) →
      (∀ c ∈ st.remaining, c.length = PEGS ∧ ∀ x ∈ c, x ∈ COLORS) →
      (match cnf_phase1 secret rng n st with
       | .inl res => Ev.exhaustedMsg ∉ st.evs → Ev.exhaustedMsg ∉ res.2
       | .inr st' => secret ∈ st'.remaining ∧
           (∀ gf ∈ st'.premises, gf.2 = get_feedback secret gf.1) ∧
           (∀ cl ∈ st'.cnf, clause_sat secret cl = .ok true) ∧
           (∀ c ∈ st'.remaining, c.length = PEGS ∧ ∀ x ∈ c, x ∈ COLORS) ∧
           (Ev.exhaustedMsg ∉ st.evs → Ev.exhaustedMsg ∉ st'.evs)) := by
  intro n
  induction n with
  | zero =>
    intro st hsec hprem hcnf hvalid
    exact ⟨hsec, hprem, hcnf, hvalid, fun h => h⟩
  | succ n ih =>
    intro st hsec hprem hcnf hvalid
    have hrem : ¬ st.remaining = [] := by
      intro h
      rw [h] at hsec
      simp at hsec
    have hpos : 0 < st.remaining.length := List.length_pos_of_mem hsec
    have hguess : st.remaining.getD (rng st.k % st.remaining.length) [] ∈
        st.remaining := by
      rw [List.getD_eq_getElem _ _ (Nat.mod_lt _ hpos)]
      exact List.getElem_mem _
    by_cases hfb : get_feedback secret
        (st.remaining.getD (rng st.k % st.remaining.length) []) = (PEGS, 0)
    · rw [cnf_phase1_step_solved hrem hfb]
      intro hnx
      simp [List.mem_append, hnx]
    · obtain ⟨hprem', hcnf', hsec', hvalid'⟩ :=
        cnf_step_invariant hs hsec hprem hcnf hvalid hguess
      rw [cnf_phase1_step_next hrem hfb]
      have hres := ih
        (⟨filter_cnf (filter_premises st.remaining
            (st.premises ++ [(st.remaining.getD (rng st.k % st.remaining.length) [],
              get_feedback secret
                (st.remaining.getD (rng st.k % st.remaining.length) []))]))
            (st.cnf ++ derive_simple_cnf_constraints
              (st.remaining.getD (rng st.k % st.remaining.length) [])
              (get_feedback secret
                (st.remaining.getD (rng st.k % st.remaining.length) []))),
          st.premises ++ [(st.remaining.getD (rng st.k % st.remaining.length) [],
            get_feedback secret (st.remaining.getD (rng st.k % st.remaining.length) []))],
          st.cnf ++ derive_simple_cnf_constraints
            (st.remaining.getD (rng st.k % st.remaining.length) [])
            (get_feedback secret (st.remaining.getD (rng st.k % st.remaining.length) [])),
          st.history ++ [st.remaining.getD (rng st.k % st.remaining.length) []],
          st.turn + 1,
          st.evs ++ [.turnMsg (st.turn + 1)
            (st.remaining.getD (rng st.k % st.remaining.length) [])
            (get_feedback secret (st.remaining.getD (rng st.k % st.remaining.length) []))],
          st.k + 1⟩ : CNFState) hsec' hprem' hcnf' hvalid'
      rcases hcall : cnf_phase1 secret rng n
          (⟨filter_cnf (filter_premises st.remaining
              (st.premises ++ [(st.remaining.getD (rng st.k % st.remaining.length) [],
                get_feedback secret
                  (st.remaining.getD (rng st.k % st.remaining.length) []))]))
              (st.cnf ++ derive_simple_cnf_constraints
                (st.remaining.getD (rng st.k % st.remaining.length) [])
                (get_feedback secret
                  (st.remaining.getD (rng st.k % st.remaining.length) []))),
            st.premises ++ [(st.remaining.getD (rng st.k % st.remaining.length) [],
              get_feedback secret (st.remaining.getD (rng st.k % st.remaining.length) []))],
            st.cnf ++ derive_simple_cnf_constraints
              (st.remaining.getD (rng st.k % st.remaining.length) [])
              (get_feedback secret (st.remaining.getD (rng st.k % st.remaining.length) [])),
            st.history ++ [st.remaining.getD (rng st.k % st.remaining.length) []],
            st.turn + 1,
            st.evs ++ [.turnMsg (st.turn + 1)
              (st.remaining.getD (rng st.k % st.remaining.length) [])
              (get_feedback secret (st.remaining.getD (rng st.k % st.remaining.length) []))],
            st.k + 1⟩ : CNFState) with res | st'
      · simp only [hcall] at hres ⊢
        intro hnx
        refine hres ?_
        simp [List.mem_append, hnx]
      · simp only [hcall] at hres ⊢
        obtain ⟨h1, h2, h3, h4, h5⟩ := hres
        refine ⟨h1, h2, h3, h4, ?_⟩
        intro hnx
        refine h5 ?_
        simp [List.mem_append, hnx]

/-- The "No candidates remain" prints of `logical_inference_solver_CNF` are
unreachable for a valid secret, for any number of initial guesses, any ambient
random stream and any fuel. -/
lemma logical_inference_solver_CNF_no_exhaust (secret : Code) (n : Nat)
    (rng : Nat → Nat) (fuel : Nat)
    (hs : secret.length = PEGS) (hmem : ∀ c ∈ secret, c ∈ COLORS) :
    Ev.exhaustedMsg ∉ (logical_inference_solver_CNF secret n rng fuel).2 := by
  have hsec0 : secret ∈ product_codes COLORS PEGS := mem_product_codes.mpr ⟨hs, hmem⟩
  have hvalid0 : ∀ c ∈ product_codes COLORS PEGS, c.length = PEGS ∧
      ∀ x ∈ c, x ∈ COLORS := by
    intro c hc
    exact ⟨(mem_product_codes.mp hc).1, (mem_product_codes.mp hc).2⟩
  have h1 := cnf_phase1_no_exhaust secret rng hs n
    ⟨product_codes COLORS PEGS, [], [], [], 0, [], 0⟩ hsec0 (by simp) (by simp) hvalid0
  rcases hcall : cnf_phase1 secret rng n
      (⟨product_codes COLORS PEGS, [], [], [], 0, [], 0⟩ : CNFState) with res | st'
  · simp only [hcall] at h1
    have hsolver : logical_inference_solver_CNF secret n rng fuel = res := by
      simp only [logical_inference_solver_CNF, hcall]
    rw [hsolver]
    exact h1 (by simp)
  · simp only [hcall] at h1
    obtain ⟨i1, i2, i3, i4, i5⟩ := h1
    have hsolver : logical_inference_solver_CNF secret n rng fuel =
        cnf_phase2 secret rng fuel st' := by
      simp only [logical_inference_solver_CNF, hcall]
    rw [hsolver]
    exact cnf_phase2_no_exhaust secret rng hs fuel st' i1 i2 i3 i4 (i5 (by simp))

/-- The "No candidates remain" print of `logical_inference_solver` is
unreachable for a valid secret, for any fuel. -/
lemma logical_inference_solver_no_exhaust (secret : Code) (pegs : Nat)
    (colors : List Symbol) (n : Nat) (rng : Nat → Nat) (fuel : Nat)
    (hs : secret.length = pegs) (hmem : ∀ c ∈ secret, c ∈ colors) :
    Ev.exhaustedMsg ∉ (logical_inference_solver secret pegs colors n rng fuel).2 := by
  have hsec0 : secret ∈ product_codes colors pegs := mem_product_codes.mpr ⟨hs, hmem⟩
  have hlen0 : ∀ c ∈ product_codes colors pegs, c.length = pegs :=
    fun c hc => (mem_product_codes.mp hc).1
  have h1 := li_phase1_spec secret pegs rng n
    ⟨product_codes colors pegs, [], [], 0, [], 0⟩ hsec0 (by simp) hlen0
  rcases hcall : li_phase1 secret pegs rng n
      (⟨product_codes colors pegs, [], [], 0, [], 0⟩ : LIState) with res | st'
  · simp only [hcall] at h1
    have hsolver : logical_inference_solver secret pegs colors n rng fuel = res := by
      simp only [logical_inference_solver, hcall]
    rw [hsolver]
    exact h1.2.2.2 (by simp)
  · simp only [hcall] at h1
    obtain ⟨i1, i2, -, -, i5⟩ := h1
    have hsolver : logical_inference_solver secret pegs colors n rng fuel =
        li_phase2 secret pegs rng fuel st' := by
      simp only [logical_inference_solver, hcall]
    rw [hsolver]
    exact li_phase2_no_exhaust secret pegs rng fuel st' i1 i2 (i5 (by simp))

/-- The "No candidates remain" print of `mastermind_minimax_solver` is
unreachable for a valid secret, for any fuel. -/
lemma mastermind_minimax_solver_no_exhaust (secret : Code) (pegs : Nat)
    (colors : List Symbol) (fuel : Nat)
    (hs : secret.length = pegs) (hmem : ∀ c ∈ secret, c ∈ colors) :
    Ev.exhaustedMsg ∉ (mastermind_minimax_solver secret pegs colors fuel).2 := by
  have hsec0 : secret ∈ product_codes colors pegs := mem_product_codes.mpr ⟨hs, hmem⟩
  have hsolver : mastermind_minimax_solver secret pegs colors fuel =
      mm_loop secret pegs (product_codes colors pegs) fuel
        (product_codes colors pegs) [] 0 [] := rfl
  rw [hsolver]
  exact mm_loop_no_exhaust secret pegs (product_codes colors pegs) hs fuel
    (product_codes colors pegs) [] 0 [] hsec0 (by simp)

/-- C2: for every valid secret (length `pegs`, symbols from the alphabet) both
solvers terminate in the solved state within `|alphabet|^pegs` turns when run
with that much fuel: the final guess appended to the returned guess history is
the secret, the guess history has at most `|alphabet|^pegs` entries, the
solved message is printed, and the recorded feedback of the final guess,
`get_feedback secret secret`, equals `(pegs, 0)`.  (For the minimax solver the
statement additionally assumes what holds of the shipped configuration: a
duplicate-free alphabet for which the fixed opening guess is a valid code.) -/
theorem solvers_terminate_solved (secret : Code) (pegs : Nat) (colors : List Symbol)
    (n : Nat) (rng : Nat → Nat)
    (hs : secret.length = pegs) (hmem : ∀ c ∈ secret, c ∈ colors)
    (hnd : colors.Nodup)
    (hil : initial_guess.length = pegs) (him : ∀ c ∈ initial_guess, c ∈ colors) :
    ((logical_inference_solver secret pegs colors n rng
        (colors.length ^ pegs)).1.getLast? = some secret ∧
      (logical_inference_solver secret pegs colors n rng
        (colors.length ^ pegs)).1.length ≤ colors.length ^ pegs ∧
      (∃ t, Ev.solvedMsg t ∈ (logical_inference_solver secret pegs colors n rng
        (colors.length ^ pegs)).2)) ∧
    ((mastermind_minimax_solver secret pegs colors
        (colors.length ^ pegs)).1.getLast? = some secret ∧
      (mastermind_minimax_solver secret pegs colors
        (colors.length ^ pegs)).1.length ≤ colors.length ^ pegs ∧
      (∃ t, Ev.solvedMsg t ∈ (mastermind_minimax_solver secret pegs colors
        (colors.length ^ pegs)).2)) ∧
    get_feedback secret secret = (pegs, 0) := by
  obtain ⟨a1, a2, a3, -⟩ := logical_inference_solver_spec secret pegs colors n rng hs hmem
  obtain ⟨b1, b2, b3, -⟩ :=
    mastermind_minimax_solver_spec secret pegs colors hs hmem hnd hil him
  refine ⟨⟨a1, a2, a3⟩, ⟨b1, b2, b3⟩, ?_⟩
  rw [get_feedback_self, hs]

/-- Witness for C2 at the shipped configuration (`PEGS = 5`, `COLORS`,
`num_initial_guesses = 3`) with secret `(red, red, red, red, red)` and the
all-zeros ambient stream. -/
theorem solvers_terminate_solved_witness :
    ((["red", "red", "red", "red", "red"] : Code).length = 5 ∧
      (∀ c ∈ (["red", "red", "red", "red", "red"] : Code), c ∈ COLORS) ∧
      COLORS.Nodup ∧ initial_guess.length = 5 ∧ (∀ c ∈ initial_guess, c ∈ COLORS)) ∧
    (((logical_inference_solver ["red", "red", "red", "red", "red"] 5 COLORS 3
        (fun _ => 0) (COLORS.length ^ 5)).1.getLast? =
          some ["red", "red", "red", "red", "red"] ∧
      (logical_inference_solver ["red", "red", "red", "red", "red"] 5 COLORS 3
        (fun _ => 0) (COLORS.length ^ 5)).1.length ≤ COLORS.length ^ 5 ∧
      (∃ t, Ev.solvedMsg t ∈ (logical_inference_solver ["red", "red", "red", "red", "red"]
        5 COLORS 3 (fun _ => 0) (COLORS.length ^ 5)).2)) ∧
    ((mastermind_minimax_solver ["red", "red", "red", "red", "red"] 5 COLORS
        (COLORS.length ^ 5)).1.getLast? = some ["red", "red", "red", "red", "red"] ∧
      (mastermind_minimax_solver ["red", "red", "red", "red", "red"] 5 COLORS
        (COLORS.length ^ 5)).1.length ≤ COLORS.length ^ 5 ∧
      (∃ t, Ev.solvedMsg t ∈ (mastermind_minimax_solver ["red", "red", "red", "red", "red"]
        5 COLORS (COLORS.length ^ 5)).2)) ∧
    get_feedback ["red", "red", "red", "red", "red"]
      ["red", "red", "red", "red", "red"] = (5, 0)) :=
  ⟨⟨by decide, by decide, by decide, by decide, by decide⟩,
    solvers_terminate_solved ["red", "red", "red", "red", "red"] 5 COLORS 3 (fun _ => 0)
      (by decide) (by decide) (by decide) (by decide) (by decide)⟩

/-- C10: with feedback computed against a fixed true secret, no filtering step
ever removes the secret — the one-premise filter, the all-premises filter, the
CNF filter (whose derived clauses the secret always satisfies without
evaluation error), and the minimax forced-removal update all keep it — and in
all three solvers the "No candidates remain" branches are unreachable for a
valid secret (for any number of initial guesses, ambient random stream and
fuel). -/
theorem secret_never_filtered_out :
    (∀ (remaining : List Code) (secret guess : Code), secret ∈ remaining →
      secret ∈ filter_one remaining guess (get_feedback secret guess)) ∧
    (∀ (remaining : List Code) (secret : Code) (premises : List (Code × Feedback)),
      (∀ gf ∈ premises, gf.2 = get_feedback secret gf.1) → secret ∈ remaining →
      secret ∈ filter_premises remaining premises) ∧
    (∀ (remaining : List Code) (secret : Code) (cnf : List (List String)),
      secret ∈ remaining → (∀ cl ∈ cnf, clause_sat secret cl = .ok true) →
      secret ∈ filter_cnf remaining cnf) ∧
    (∀ (secret guess : Code), secret.length = PEGS → guess.length = PEGS →
      (∀ c ∈ guess, c ∈ COLORS) →
      ∀ cl ∈ derive_simple_cnf_constraints guess (get_feedback secret guess),
        clause_sat secret cl = .ok true) ∧
    (∀ (remaining : List Code) (secret guess : Code), secret ∈ remaining →
      guess ≠ secret → secret ∈ mm_update remaining guess (get_feedback secret guess)) ∧
    (∀ (secret : Code) (pegs : Nat) (colors : List Symbol) (n : Nat)
      (rng : Nat → Nat) (fuel : Nat),
      secret.length = pegs → (∀ c ∈ secret, c ∈ colors) →
      Ev.exhaustedMsg ∉ (logical_inference_solver secret pegs colors n rng fuel).2) ∧
    (∀ (secret : Code) (pegs : Nat) (colors : List Symbol) (fuel : Nat),
      secret.length = pegs → (∀ c ∈ secret, c ∈ colors) →
      Ev.exhaustedMsg ∉ (mastermind_minimax_solver secret pegs colors fuel).2) ∧
    (∀ (secret : Code) (n : Nat) (rng : Nat → Nat) (fuel : Nat),
      secret.length = PEGS → (∀ c ∈ secret, c ∈ COLORS) →
      Ev.exhaustedMsg ∉ (logical_inference_solver_CNF secret n rng fuel).2) := by
  refine ⟨?_, ?_, ?_, ?_, ?_, ?_, ?_, ?_⟩
  · intro remaining secret guess h
    exact mem_filter_one.mpr ⟨h, rfl⟩
  · intro remaining secret premises h1 h2
    exact mem_filter_premises.mpr ⟨h2, fun gf hgf => (h1 gf hgf).symm⟩
  · intro remaining secret cnf h1 h2
    exact mem_filter_cnf.mpr ⟨h1, cnf_holds_of_all_sat h2⟩
  · intro secret guess h1 h2 h3
    exact derive_clauses_sat h1 h2 h3
  · intro remaining secret guess hmem hne
    unfold mm_update
    by_cases hcond : (filter_one remaining guess (get_feedback secret guess)).length =
        remaining.length
    · rw [if_pos hcond]
      exact (List.mem_erase_of_ne (fun hse => hne hse.symm)).mpr hmem
    · rw [if_neg hcond]
      exact mem_filter_one.mpr ⟨hmem, rfl⟩
  · intro secret pegs colors n rng fuel h1 h2
    exact logical_inference_solver_no_exhaust secret pegs colors n rng fuel h1 h2
  · intro secret pegs colors fuel h1 h2
    exact mastermind_minimax_solver_no_exhaust secret pegs colors fuel h1 h2
  · intro secret n rng fuel h1 h2
    exact logical_inference_solver_CNF_no_exhaust secret n rng fuel h1 h2

/-- Witness for C10, applying the membership conjunct at a concrete
candidate set. -/
theorem secret_never_filtered_out_witness :
    (["red"] : Code) ∈ ([["red"], ["yellow"]] : List Code) ∧
    (["red"] : Code) ∈ filter_one [["red"], ["yellow"]] ["yellow"]
      (get_feedback ["red"] ["yellow"]) :=
  ⟨by decide, secret_never_filtered_out.1 [["red"], ["yellow"]] ["red"] ["yellow"]
    (by decide)⟩

/-! ### C7: how an exhausted run is reported -/

/-- Counterexample to C7: a solved run and an exhausted run of the phase-2
loop return the *same* value (the bare guess history `[[red]]`); solved versus
exhausted is visible only in the print trace.  The return value therefore
carries no status tag (nor turn count): the exhausted outcome is reported only
by the best-effort print, contradicting the claimed structured
`{status, guessHistory, turnsUsed}` result. -/
theorem exhausted_returns_bare_history_counterexample :
    (li_phase2 ["red"] 1 (fun _ => 0) 1 ⟨[["red"]], [], [], 0, [], 0⟩).1 =
      (li_phase2 ["yellow"] 1 (fun _ => 0) 1 ⟨[["red"]], [], [], 0, [], 0⟩).1 ∧
    Ev.solvedMsg 1 ∈ (li_phase2 ["red"] 1 (fun _ => 0) 1 ⟨[["red"]], [], [], 0, [], 0⟩).2 ∧
    Ev.exhaustedMsg ∈
      (li_phase2 ["yellow"] 1 (fun _ => 0) 1 ⟨[["red"]], [], [], 0, [], 0⟩).2 ∧
    Ev.exhaustedMsg ∉
      (li_phase2 ["red"] 1 (fun _ => 0) 1 ⟨[["red"]], [], [], 0, [], 0⟩).2 := by
  refine ⟨rfl, ?_, ?_, ?_⟩ <;> decide

/-- C7 as amended: when filtering empties the candidate set, the phase-2 loop
prints the turn report followed by the "No candidates remain" message and
returns only the guess history accumulated so far — the returned value is the
bare history, with the outcome recorded solely in the print trace. -/
theorem exhausted_reported_by_print_only (secret : Code) (pegs : Nat)
    (rng : Nat → Nat) (fuel : Nat) (st : LIState) (s : Int) (c : Code)
    (hrem : ¬ st.remaining = [])
    (harg : argmin_first (score st.premises) st.remaining = some (s, c))
    (hfb : ¬ get_feedback secret c = (pegs, 0))
    (hempty : filter_premises st.remaining
      (st.premises ++ [(c, get_feedback secret c)]) = []) :
    li_phase2 secret pegs rng (fuel + 1) st =
      (st.history ++ [c],
        (st.evs ++ [.turnMsg (st.turn + 1) c (get_feedback secret c)]) ++
          [.exhaustedMsg]) :=
  li_phase2_step_exhausted hrem harg hfb hempty

/-- Witness for the amended C7 at a concrete exhausting input. -/
theorem exhausted_reported_by_print_only_witness :
    ((¬ (⟨[["red"]], [], [], 0, [], 0⟩ : LIState).remaining = []) ∧
      argmin_first (score (⟨[["red"]], [], [], 0, [], 0⟩ : LIState).premises)
        (⟨[["red"]], [], [], 0, [], 0⟩ : LIState).remaining = some (0, ["red"]) ∧
      (¬ get_feedback ["yellow"] ["red"] = (1, 0)) ∧
      filter_premises (⟨[["red"]], [], [], 0, [], 0⟩ : LIState).remaining
        ((⟨[["red"]], [], [], 0, [], 0⟩ : LIState).premises ++
          [(["red"], get_feedback ["yellow"] ["red"])]) = []) ∧
    li_phase2 ["yellow"] 1 (fun _ => 0) 1 ⟨[["red"]], [], [], 0, [], 0⟩ =
      (([] : List Code) ++ [["red"]],
        (([] : List Ev) ++ [.turnMsg 1 ["red"] (get_feedback ["yellow"] ["red"])]) ++
          [.exhaustedMsg]) := by
  refine ⟨⟨by decide, by decide, by decide, by decide⟩, ?_⟩
  exact exhausted_reported_by_print_only ["yellow"] 1 (fun _ => 0) 0
    ⟨[["red"]], [], [], 0, [], 0⟩ 0 ["red"] (by decide) (by decide) (by decide) (by decide)

/-! ### C8: string literals and malformed-literal handling -/

/-- Counterexample to C8: literals are plain strings, `"garbage"` fails to
parse (`parseInside` = `none`, evaluation = `parseFail`), and yet clause
evaluation proceeds normally — the clause holding that malformed literal next
to a valid true literal evaluates to `.ok true` and the run does not fail. -/
theorem malformed_literal_skipped_counterexample :
    parseInside "garbage" = none ∧
    eval_literal ["red"] "garbage" = .parseFail ∧
    code_satisfies_cnf ["red"] [["garbage", "Color(1, red)"]] = .ok true := by
  refine ⟨by decide, by decide, rfl⟩

/-- C8 as amended: constraint literals are represented as strings parsed at
evaluation time, and a literal that fails to parse is silently skipped during
clause evaluation — the clause is evaluated exactly as if the malformed
literal were absent, and the run does not fail. -/
theorem malformed_literal_skipped (code : Code) (lit : String) (clause : List String)
    (h : eval_literal code lit = .parseFail) :
    clause_sat code (lit :: clause) = clause_sat code clause := by
  rw [clause_sat, h]

/-- Witness for the amended C8 at the malformed literal `"garbage"`. -/
theorem malformed_literal_skipped_witness :
    eval_literal ["red"] "garbage" = .parseFail ∧
    clause_sat ["red"] ("garbage" :: ["Color(1, red)"]) =
      clause_sat ["red"] ["Color(1, red)"] :=
  ⟨by decide, malformed_literal_skipped ["red"] "garbage" ["Color(1, red)"] (by decide)⟩

/-! ### C9: dependence on the ambient random source -/

lemma li_phase2_step_guard {secret : Code} {pegs : Nat} {rng : Nat → Nat} {fuel : Nat}
    {st : LIState} (hrem : st.remaining = []) :
    li_phase2 secret pegs rng (fuel + 1) st = (st.history, st.evs) := by
  rw [li_phase2, if_pos hrem]

/-- Phase 2 never consumes a random draw on any reachable path (the
`best_guess is None` fallback fires only for an empty candidate list, which
the loop guard excludes), so its result does not depend on the ambient
stream. -/
lemma li_phase2_rng_irrel (secret : Code) (pegs : Nat) :
    ∀ (fuel : Nat) (st : LIState) (rng₁ rng₂ : Nat → Nat),
      li_phase2 secret pegs rng₁ fuel st = li_phase2 secret pegs rng₂ fuel st := by
  intro fuel
  induction fuel with
  | zero =>
    intro st rng₁ rng₂
    rfl
  | succ fuel ih =>
    intro st rng₁ rng₂
    by_cases hrem : st.remaining = []
    · rw [li_phase2_step_guard hrem, li_phase2_step_guard hrem]
    · rcases harg : argmin_first (score st.premises) st.remaining with - | ⟨s, c⟩
      · exact absurd ((argmin_first_eq_none _ _).mp harg) hrem
      by_cases hfb : get_feedback secret c = (pegs, 0)
      · rw [li_phase2_step_solved hrem harg hfb, li_phase2_step_solved hrem harg hfb]
      · by_cases hempty : filter_premises st.remaining
            (st.premises ++ [(c, get_feedback secret c)]) = []
        · rw [li_phase2_step_exhausted hrem harg hfb hempty,
            li_phase2_step_exhausted hrem harg hfb hempty]
        · rw [li_phase2_step_next hrem harg hfb hempty,
            li_phase2_step_next hrem harg hfb hempty]
          exact ih _ rng₁ rng₂

/-- Phase 1 consumes exactly one random draw per iteration, at the stream
positions `st.k, st.k+1, …`: two ambient streams agreeing on that window give
identical phase-1 results. -/
lemma li_phase1_rng_prefix (secret : Code) (pegs : Nat) :
    ∀ (n : Nat) (st : LIState) (rng₁ rng₂ : Nat → Nat),
      (∀ j, st.k ≤ j → j < st.k + n → rng₁ j = rng₂ j) →
      li_phase1 secret pegs rng₁ n st = li_phase1 secret pegs rng₂ n st := by
  intro n
  induction n with
  | zero =>
    intro st rng₁ rng₂ _
    rfl
  | succ n ih =>
    intro st rng₁ rng₂ h
    have hk : rng₁ st.k = rng₂ st.k := h st.k (le_refl _) (by omega)
    have hgeq : st.remaining.getD (rng₁ st.k % st.remaining.length) [] =
        st.remaining.getD (rng₂ st.k % st.remaining.length) [] := by
      rw [hk]
    by_cases hfb : get_feedback secret
        (st.remaining.getD (rng₂ st.k % st.remaining.length) []) = (pegs, 0)
    · rw [li_phase1_step_solved (by rw [hgeq]; exact hfb), li_phase1_step_solved hfb,
        hgeq]
    · rw [li_phase1_step_next (by rw [hgeq]; exact hfb), li_phase1_step_next hfb, hgeq]
      refine ih _ rng₁ rng₂ ?_
      intro j hj1 hj2
      dsimp only at hj1 hj2
      exact h j (by omega) (by omega)

/-- Counterexample to C9: the solver's randomness is *not* driven by any
explicitly provided, seedable source — the functions take no seed — and two
runs with identical explicit inputs (same secret, same configuration) produce
different guess histories under different ambient `random.choice` streams. -/
theorem rng_dependence_counterexample :
    (logical_inference_solver ["red"] 1 ["red", "yellow"] 1 (fun _ => 0) 5).1 ≠
      (logical_inference_solver ["red"] 1 ["red", "yellow"] 1 (fun _ => 1) 5).1 := by
  decide

/-- C9 as amended: all randomness in `logical_inference_solver` comes from the
implicit module-global `random` stream (modelled as the ambient `rng`); the
run is a deterministic function of the secret, the configuration and that
stream, consuming exactly the first `num_initial_guesses` draws — two runs
whose ambient streams agree on those draws produce identical guess histories
and traces.  Reproducibility therefore holds only with respect to the hidden
global stream, not to any seed parameter of the solver itself. -/
theorem run_determined_by_rng_prefix (secret : Code) (pegs : Nat)
    (colors : List Symbol) (n : Nat) (fuel : Nat) (rng₁ rng₂ : Nat → Nat)
    (h : ∀ j < n, rng₁ j = rng₂ j) :
    logical_inference_solver secret pegs colors n rng₁ fuel =
      logical_inference_solver secret pegs colors n rng₂ fuel := by
  have hphase1 : li_phase1 secret pegs rng₁ n
      ⟨product_codes colors pegs, [], [], 0, [], 0⟩ =
      li_phase1 secret pegs rng₂ n ⟨product_codes colors pegs, [], [], 0, [], 0⟩ := by
    refine li_phase1_rng_prefix secret pegs n _ rng₁ rng₂ ?_
    intro j hj1 hj2
    dsimp only at hj2
    exact h j (by omega)
  rcases hcall : li_phase1 secret pegs rng₂ n
      (⟨product_codes colors pegs, [], [], 0, [], 0⟩ : LIState) with res | st'
  · have h1 : logical_inference_solver secret pegs colors n rng₁ fuel = res := by
      simp only [logical_inference_solver, hphase1, hcall]
    have h2 : logical_inference_solver secret pegs colors n rng₂ fuel = res := by
      simp only [logical_inference_solver, hcall]
    rw [h1, h2]
  · have h1 : logical_inference_solver secret pegs colors n rng₁ fuel =
        li_phase2 secret pegs rng₁ fuel st' := by
      simp only [logical_inference_solver, hphase1, hcall]
    have h2 : logical_inference_solver secret pegs colors n rng₂ fuel =
        li_phase2 secret pegs rng₂ fuel st' := by
      simp only [logical_inference_solver, hcall]
    rw [h1, h2]
    exact li_phase2_rng_irrel secret pegs fuel st' rng₁ rng₂

/-- Witness for the amended C9: two streams agreeing on the first draw yield
identical runs. -/
theorem run_determined_by_rng_prefix_witness :
    (∀ j < 1, (fun _ : Nat => 0) j = (fun k : Nat => if k = 0 then 0 else k + 7) j) ∧
    logical_inference_solver ["red"] 1 ["red", "yellow"] 1 (fun _ => 0) 5 =
      logical_inference_solver ["red"] 1 ["red", "yellow"] 1
        (fun k => if k = 0 then 0 else k + 7) 5 :=
  ⟨by decide, run_determined_by_rng_prefix ["red"] 1 ["red", "yellow"] 1 5
    (fun _ => 0) (fun k => if k = 0 then 0 else k + 7) (by decide)⟩

end MasterMind
